import Mathlib

/-
Verification of the travel-graph core of the `unset-game` repository:
spherical-geometry primitives (backend/game/geoLocation.py), the node/graph
engine (backend/game/node.py) and the network-generation phases
(backend/game/generate_network.py), shallowly embedded over the reals.

Machine floats of the source are modelled by real numbers; Python's `%` on a
positive real modulus is modelled by `pymod`; `math.atan2` by the argument of
a complex number (both have range (-pi, pi]).
-/

noncomputable section

open Real

/-- `math.radians`: degrees to radians. -/
def radOf (x : ℝ) : ℝ := x * (Real.pi / 180)

/-- `math.degrees`: radians to degrees. -/
def degOf (x : ℝ) : ℝ := x * (180 / Real.pi)

/-- Python `a % b` for a positive real modulus `b`: `a - b * floor (a / b)`. -/
def pymod (a b : ℝ) : ℝ := a - b * ⌊a / b⌋

/-- `math.atan2 y x`: the angle of the point `(x, y)`, in `(-pi, pi]`. -/
def atan2 (y x : ℝ) : ℝ := Complex.arg ⟨x, y⟩

/-- A planetary location, in degrees (class `GeoLocation`).  The constructor
stores its two arguments without any normalization or clamping, exactly as
`GeoLocation.__init__` does. -/
structure GeoLocation where
  latitude : ℝ
  longitude : ℝ

/-- The longitude-difference wrap used by `get_distance_to_point` and
`get_direction_of_point`: `if lon_diff > 180: -= 360 elif lon_diff < -180: += 360`. -/
def wrapLonDiff (d : ℝ) : ℝ :=
  if d > 180 then d - 360 else if d < -180 then d + 360 else d

/-- The haversine quantity `a` of `GeoLocation.get_distance_to_point`. -/
def GeoLocation.hav (p q : GeoLocation) : ℝ :=
  Real.sin ((radOf q.latitude - radOf p.latitude) / 2) ^ 2 +
    Real.cos (radOf p.latitude) * Real.cos (radOf q.latitude) *
      Real.sin (radOf (wrapLonDiff (q.longitude - p.longitude)) / 2) ^ 2

/-- `GeoLocation.get_distance_to_point`: great-circle angular distance in
degrees, `degrees (2 * asin (sqrt a))`. -/
def GeoLocation.get_distance_to_point (p q : GeoLocation) : ℝ :=
  degOf (2 * Real.arcsin (Real.sqrt (GeoLocation.hav p q)))

/-- The raw (unclamped) new latitude computed by `GeoLocation.translate`, in
radians: `asin (sin lat1 * cos d + cos lat1 * sin d * cos bearing)`. -/
def GeoLocation.tlat (p : GeoLocation) (direction distance : ℝ) : ℝ :=
  Real.arcsin (Real.sin (radOf p.latitude) * Real.cos (radOf distance) +
    Real.cos (radOf p.latitude) * Real.sin (radOf distance) * Real.cos (radOf direction))

/-- The raw (unwrapped) new longitude computed by `GeoLocation.translate`, in
radians: `lon1 + atan2 (sin bearing * sin d * cos lat1) (cos d - sin lat1 * sin lat2)`. -/
def GeoLocation.tlon (p : GeoLocation) (direction distance : ℝ) : ℝ :=
  radOf p.longitude +
    atan2 (Real.sin (radOf direction) * Real.sin (radOf distance) * Real.cos (radOf p.latitude))
      (Real.cos (radOf distance) -
        Real.sin (radOf p.latitude) * Real.sin (GeoLocation.tlat p direction distance))

/-- `GeoLocation.translate`: move along a great circle, then normalize the
longitude by `((lon + 180) % 360) - 180` and clamp the latitude by
`max(-45, min(45, lat))`. -/
def GeoLocation.translate (p : GeoLocation) (direction distance : ℝ) : GeoLocation :=
  { latitude := max (-45) (min 45 (degOf (GeoLocation.tlat p direction distance)))
    longitude := pymod (degOf (GeoLocation.tlon p direction distance) + 180) 360 - 180 }

/-! ### Range of `pymod` and of the translate normalization -/

theorem pymod_nonneg (a : ℝ) {b : ℝ} (hb : 0 < b) : 0 ≤ pymod a b := by
  have h : pymod a b = b * Int.fract (a / b) := by
    unfold pymod Int.fract
    field_simp
  rw [h]
  exact mul_nonneg hb.le (Int.fract_nonneg _)

theorem pymod_lt (a : ℝ) {b : ℝ} (hb : 0 < b) : pymod a b < b := by
  have h : pymod a b = b * Int.fract (a / b) := by
    unfold pymod Int.fract
    field_simp
  rw [h]
  calc b * Int.fract (a / b) < b * 1 := by
        exact (mul_lt_mul_left hb).mpr (Int.fract_lt_one _)
    _ = b := mul_one b

theorem translate_latitude_mem (p : GeoLocation) (direction distance : ℝ) :
    -45 ≤ (p.translate direction distance).latitude ∧
      (p.translate direction distance).latitude ≤ 45 := by
  unfold GeoLocation.translate
  constructor
  · exact le_max_left _ _
  · exact max_le (by norm_num) (min_le_left _ _)

theorem translate_longitude_mem (p : GeoLocation) (direction distance : ℝ) :
    -180 ≤ (p.translate direction distance).longitude ∧
      (p.translate direction distance).longitude < 180 := by
  unfold GeoLocation.translate
  have h1 := pymod_nonneg (degOf (GeoLocation.tlon p direction distance) + 180)
    (b := 360) (by norm_num)
  have h2 := pymod_lt (degOf (GeoLocation.tlon p direction distance) + 180)
    (b := 360) (by norm_num)
  constructor <;> simp only [] <;> linarith

/-! ### Evaluation helpers for concrete geometry -/

theorem radOf_zero : radOf 0 = 0 := by simp [radOf]

theorem degOf_zero : degOf 0 = 0 := by simp [degOf]

theorem radOf_degOf (x : ℝ) : degOf (radOf x) = x := by
  unfold radOf degOf
  field_simp

theorem degOf_radOf (x : ℝ) : radOf (degOf x) = x := by
  unfold radOf degOf
  field_simp

theorem radOf_onehundredeighty : radOf 180 = Real.pi := by
  unfold radOf
  field_simp

theorem atan2_zero_one : atan2 0 1 = 0 := by
  have h : (⟨1, 0⟩ : ℂ) = (1 : ℂ) := by
    apply Complex.ext <;> simp
  unfold atan2
  rw [h, Complex.arg_one]

/-- `atan2 0 x = 0` whenever `x ≥ 0` (the positive real axis, and `arg 0 = 0`). -/
theorem atan2_zero_nonneg {x : ℝ} (hx : 0 ≤ x) : atan2 0 x = 0 := by
  have h : (⟨x, 0⟩ : ℂ) = ((x : ℝ) : ℂ) := by
    apply Complex.ext <;> simp
  unfold atan2
  rw [h]
  exact Complex.arg_ofReal_of_nonneg hx

/-- Translating `(0, 180)` by bearing 0 and distance 0 lands on longitude `-180`. -/
theorem translate_dateline_eval :
    GeoLocation.translate ⟨0, 180⟩ 0 0 = ⟨0, -180⟩ := by
  have htlat : GeoLocation.tlat ⟨0, 180⟩ 0 0 = 0 := by
    unfold GeoLocation.tlat
    simp [radOf_zero]
  have htlon : GeoLocation.tlon ⟨0, 180⟩ 0 0 = Real.pi := by
    unfold GeoLocation.tlon
    rw [htlat]
    simp only [radOf_zero, Real.sin_zero, Real.cos_zero, zero_mul, mul_zero, mul_one, sub_zero]
    rw [atan2_zero_one]
    simp [radOf_onehundredeighty]
  unfold GeoLocation.translate
  rw [htlat, htlon]
  have hdeg : degOf Real.pi = 180 := by
    unfold degOf
    field_simp
  have hfloor : ⌊(180 + 180 : ℝ) / 360⌋ = 1 := by
    norm_num
  have hmod : pymod (180 + 180) 360 = 0 := by
    unfold pymod
    rw [hfloor]
    norm_num
  rw [hdeg, degOf_zero, hmod]
  norm_num

/-! ### C1 -/

/-- **C1 (counterexample).** The point `(0, 180)` has latitude in `[-45, 45]`
and longitude in `(-180, 180]`, yet translating it by bearing 0 and distance 0
yields longitude exactly `-180`, which is **not** in `(-180, 180]`; so the
claimed invariant "resulting longitude always lies in (-180, 180]" fails. -/
theorem C1_counterexample :
    ((-45 : ℝ) ≤ 0 ∧ (0 : ℝ) ≤ 45 ∧ (-180 : ℝ) < 180 ∧ (180 : ℝ) ≤ 180) ∧
      (GeoLocation.translate ⟨0, 180⟩ 0 0).longitude = -180 ∧
      ¬ (-180 < (GeoLocation.translate ⟨0, 180⟩ 0 0).longitude) := by
  rw [translate_dateline_eval]
  norm_num

/-- **C1 (amended).** For every `GeoLocation` whose latitude is in `[-45, 45]`
and longitude is in `(-180, 180]`, and every bearing and distance, after
`translate` the resulting latitude lies in `[-45, 45]` (clamped) and the
resulting longitude lies in the half-open interval `[-180, 180)` (the
normalization `((lon + 180) % 360) - 180` produces `-180` but never `180`). -/
theorem C1_translate_range (p : GeoLocation) (direction distance : ℝ)
    (hlat1 : -45 ≤ p.latitude) (hlat2 : p.latitude ≤ 45)
    (hlon1 : -180 < p.longitude) (hlon2 : p.longitude ≤ 180) :
    (-45 ≤ (p.translate direction distance).latitude ∧
        (p.translate direction distance).latitude ≤ 45) ∧
      (-180 ≤ (p.translate direction distance).longitude ∧
        (p.translate direction distance).longitude < 180) :=
  ⟨translate_latitude_mem p direction distance,
    translate_longitude_mem p direction distance⟩

/-- **C1 (witness).** The amended range theorem applied at the concrete point
`(0, 0)` with bearing 0 and distance 0. -/
theorem C1_translate_range_witness :
    (-45 ≤ (GeoLocation.translate ⟨0, 0⟩ 0 0).latitude ∧
        (GeoLocation.translate ⟨0, 0⟩ 0 0).latitude ≤ 45) ∧
      (-180 ≤ (GeoLocation.translate ⟨0, 0⟩ 0 0).longitude ∧
        (GeoLocation.translate ⟨0, 0⟩ 0 0).longitude < 180) :=
  C1_translate_range ⟨0, 0⟩ 0 0 (by norm_num) (by norm_num) (by norm_num) (by norm_num)

/-! ### Concrete distance evaluations -/

/-- For `0 ≤ x ≤ pi/2` the haversine pipeline applied to the quantity
`sin x ^ 2` gives back the angle `2 * x`. -/
theorem arcsin_sqrt_sin_sq {x : ℝ} (h0 : 0 ≤ x) (h2 : x ≤ Real.pi / 2) :
    Real.arcsin (Real.sqrt (Real.sin x ^ 2)) = x := by
  have hs : Real.sqrt (Real.sin x ^ 2) = Real.sin x := by
    rw [Real.sqrt_sq_eq_abs]
    exact abs_of_nonneg (Real.sin_nonneg_of_nonneg_of_le_pi h0 (by linarith [Real.pi_pos]))
  rw [hs]
  exact Real.arcsin_sin (by linarith [Real.pi_pos]) h2

/-- Distance between two points on the same meridian whose raw latitude
difference is `2 * x` (in radians, with `0 ≤ x ≤ pi/2`). -/
theorem gdp_same_lon_eval {p q : GeoLocation} {x : ℝ}
    (hlon : q.longitude = p.longitude)
    (hx : (radOf q.latitude - radOf p.latitude) / 2 = x ∨
      (radOf q.latitude - radOf p.latitude) / 2 = -x)
    (h0 : 0 ≤ x) (h2 : x ≤ Real.pi / 2) :
    p.get_distance_to_point q = degOf (2 * x) := by
  have hw : wrapLonDiff (q.longitude - p.longitude) = 0 := by
    rw [hlon]
    unfold wrapLonDiff
    norm_num
  have hhav : GeoLocation.hav p q = Real.sin x ^ 2 := by
    unfold GeoLocation.hav
    rw [hw, radOf_zero]
    rcases hx with hx | hx <;> rw [hx] <;> simp [Real.sin_neg, neg_sq]
  unfold GeoLocation.get_distance_to_point
  rw [hhav, arcsin_sqrt_sin_sq h0 h2]

/-- With raw (unclamped) latitude 360 stored by the constructor, the computed
distance to the origin is 0, since `sin ((0 - 2 pi) / 2) = 0`. -/
theorem gdp_360_0 :
    GeoLocation.get_distance_to_point ⟨360, 0⟩ ⟨0, 0⟩ = 0 := by
  have hw : wrapLonDiff ((0 : ℝ) - 0) = 0 := by
    unfold wrapLonDiff
    norm_num
  have hrad : radOf 360 = 2 * Real.pi := by
    unfold radOf
    field_simp
    ring
  have hhav : GeoLocation.hav ⟨360, 0⟩ ⟨0, 0⟩ = 0 := by
    unfold GeoLocation.hav
    show Real.sin ((radOf 0 - radOf 360) / 2) ^ 2 +
      Real.cos (radOf 360) * Real.cos (radOf 0) *
        Real.sin (radOf (wrapLonDiff (0 - 0)) / 2) ^ 2 = 0
    rw [hw, radOf_zero, hrad]
    have : (0 - 2 * Real.pi) / 2 = -Real.pi := by ring
    rw [this]
    simp [Real.sin_neg, Real.sin_pi]
  unfold GeoLocation.get_distance_to_point
  rw [hhav]
  simp [degOf_zero]

/-- The in-range latitude 45 gives distance 45 to the origin. -/
theorem gdp_45_0 :
    GeoLocation.get_distance_to_point ⟨45, 0⟩ ⟨0, 0⟩ = 45 := by
  have h := gdp_same_lon_eval (p := ⟨45, 0⟩) (q := ⟨0, 0⟩) (x := Real.pi / 8) rfl
    (by right
        show (radOf 0 - radOf 45) / 2 = -(Real.pi / 8)
        unfold radOf
        field_simp
        ring)
    (by positivity) (by linarith [Real.pi_pos])
  rw [h]
  unfold degOf
  field_simp
  ring

/-- Distance from `(0, 0)` to `(2, 0)`: exactly 2 degrees. -/
theorem gdp_0_2 :
    GeoLocation.get_distance_to_point ⟨0, 0⟩ ⟨2, 0⟩ = 2 := by
  have h := gdp_same_lon_eval (p := ⟨0, 0⟩) (q := ⟨2, 0⟩) (x := Real.pi / 180) rfl
    (by left
        show (radOf 2 - radOf 0) / 2 = Real.pi / 180
        unfold radOf
        field_simp
        ring)
    (by positivity) (by linarith [Real.pi_pos])
  rw [h]
  unfold degOf
  field_simp

/-! ### C10 -/

/-- **C10.** Constructing a `GeoLocation` performs no normalization or
clamping: the stored latitude and longitude equal the constructor arguments
exactly, for arbitrary (also out-of-range) values; and the distance
computation consumes the raw stored values — with raw latitude 360 the
computed distance to the origin is 0, which differs from the distance 45
that the in-range (clamped) latitude 45 would give. -/
theorem C10_constructor_raw :
    (∀ lat lon : ℝ, (GeoLocation.mk lat lon).latitude = lat ∧
        (GeoLocation.mk lat lon).longitude = lon) ∧
      GeoLocation.get_distance_to_point ⟨360, 0⟩ ⟨0, 0⟩ = 0 ∧
      GeoLocation.get_distance_to_point ⟨45, 0⟩ ⟨0, 0⟩ = 45 ∧
      GeoLocation.get_distance_to_point ⟨360, 0⟩ ⟨0, 0⟩ ≠
        GeoLocation.get_distance_to_point ⟨45, 0⟩ ⟨0, 0⟩ := by
  refine ⟨fun lat lon => ⟨rfl, rfl⟩, gdp_360_0, gdp_45_0, ?_⟩
  rw [gdp_360_0, gdp_45_0]
  norm_num

/-! ## The node/graph engine (backend/game/node.py)

Python nodes are objects linked by direct references, with identity and
equality defined solely by `id` (uuid strings in the source, natural numbers
here).  We model the population of node objects as an insertion-ordered
association list from ids to node states; a `connections` dict of the source
(id -> Node) becomes the `List NodeId` of its keys in insertion order.
Python dicts are modelled by association lists: assignment updates the first
matching key in place or appends a fresh key at the end, exactly the
insertion-order semantics of `dict`. -/

abbrev NodeId := ℕ

/-- Dict lookup `d.get(k)`. -/
def aget {α : Type} : List (NodeId × α) → NodeId → Option α
  | [], _ => none
  | (j, v) :: rest, i => if j = i then some v else aget rest i

/-- Dict assignment `d[k] = v`. -/
def aset {α : Type} : List (NodeId × α) → NodeId → α → List (NodeId × α)
  | [], i, v => [(i, v)]
  | (j, u) :: rest, i, v => if j = i then (j, v) :: rest else (j, u) :: aset rest i v

theorem aget_aset_self {α : Type} (l : List (NodeId × α)) (i : NodeId) (v : α) :
    aget (aset l i v) i = some v := by
  induction l with
  | nil => simp [aget, aset]
  | cons hd tl ih =>
    obtain ⟨j, u⟩ := hd
    by_cases h : j = i
    · simp [aget, aset, h]
    · simp [aget, aset, h, ih]

theorem aget_aset_ne {α : Type} (l : List (NodeId × α)) {i j : NodeId} (v : α)
    (h : i ≠ j) : aget (aset l i v) j = aget l j := by
  induction l with
  | nil => simp [aget, aset, h]
  | cons hd tl ih =>
    obtain ⟨k, u⟩ := hd
    by_cases hk : k = i
    · subst hk
      simp [aget, aset, h]
    · simp only [aset, if_neg hk]
      by_cases hkj : k = j
      · simp [aget, hkj]
      · simp [aget, hkj, ih]

/-- The mutable state of one `Node` object: its location and the keys of its
`connections` dict (`name` and `properties` play no role in any claim). -/
structure NodeState where
  location : GeoLocation
  conns : List NodeId

/-- All live node objects, keyed by id. -/
abbrev World := List (NodeId × NodeState)

/-- The keys of `node.connections` (`[]` for an id with no object, which
cannot arise in the source where nodes are reached through references). -/
def conns (w : World) (i : NodeId) : List NodeId :=
  match aget w i with
  | none => []
  | some st => st.conns

/-- `node.location`. -/
def locOf (w : World) (i : NodeId) : Option GeoLocation :=
  (aget w i).map NodeState.location

/-- `len(node.connections)`: the degree of a node. -/
def degree (w : World) (i : NodeId) : ℕ := (conns w i).length

/-- `Node.get_distance_to`: spherical distance between the two nodes'
locations (the default location is never used on ids with live objects). -/
def get_distance_to (w : World) (a b : NodeId) : ℝ :=
  GeoLocation.get_distance_to_point ((locOf w a).getD ⟨0, 0⟩) ((locOf w b).getD ⟨0, 0⟩)

/-- `Node.get_travel_time_to`: `distance / speed`, with **no** validation of
`speed`.  (Real division by zero is 0 in Lean while Python raises
`ZeroDivisionError`; every theorem below uses a nonzero speed, where the two
semantics agree.) -/
def get_travel_time_to (w : World) (a b : NodeId) (speed : ℝ) : ℝ :=
  get_distance_to w a b / speed

/-- The second half of `connect_to`: `if bidirectional and self.id not in
other_node.connections: other_node.connections[self.id] = self`. -/
def connect_back (w1 : World) (a b : NodeId) (bidirectional : Bool) : World :=
  if bidirectional then
    match aget w1 b with
    | none => w1
    | some sb => if a ∈ sb.conns then w1 else aset w1 b { sb with conns := sb.conns ++ [a] }
  else w1

/-- `Node.connect_to(other, bidirectional)`: returns the updated world and
the boolean result.  Mirrors the source exactly: a no-op returning `False`
if the forward edge already exists; otherwise inserts the forward edge and,
when `bidirectional` and the reverse edge is absent, the reverse edge. -/
def connect_to (w : World) (a b : NodeId) (bidirectional : Bool) : World × Bool :=
  match aget w a with
  | none => (w, false)
  | some sa =>
    if b ∈ sa.conns then (w, false)
    else (connect_back (aset w a { sa with conns := sa.conns ++ [b] }) a b bidirectional, true)

/-- The second half of `disconnect_from`: `if bidirectional and self.id in
other_node.connections: del other_node.connections[self.id]`. -/
def disconnect_back (w1 : World) (a b : NodeId) (bidirectional : Bool) : World :=
  if bidirectional then
    match aget w1 b with
    | none => w1
    | some sb => if a ∈ sb.conns then aset w1 b { sb with conns := sb.conns.erase a } else w1
  else w1

/-- `Node.disconnect_from(other, bidirectional)`: a no-op returning `False`
if the forward edge is absent; otherwise deletes the forward edge and, when
`bidirectional` and present, the reverse edge. -/
def disconnect_from (w : World) (a b : NodeId) (bidirectional : Bool) : World × Bool :=
  match aget w a with
  | none => (w, false)
  | some sa =>
    if b ∈ sa.conns then
      (disconnect_back (aset w a { sa with conns := sa.conns.erase b }) a b bidirectional, true)
    else (w, false)

/-- `Node.is_connected_to`. -/
def is_connected_to (w : World) (a b : NodeId) : Prop := b ∈ conns w a

instance (w : World) (a b : NodeId) : Decidable (is_connected_to w a b) := by
  unfold is_connected_to
  infer_instance

/-- A `NodeNetwork`: the ordered key list of its `nodes` dict (the node
states themselves live in the `World`). -/
structure NodeNetwork where
  nodes : List NodeId

/-- `NodeNetwork.remove_node`: rejects an id not in the network; otherwise
disconnects (bidirectionally) every connection listed in the *removed node's
own* `connections` dict, then deletes the id from the network map. -/
def remove_node (w : World) (net : NodeNetwork) (nid : NodeId) : World × NodeNetwork × Bool :=
  if nid ∈ net.nodes then
    ((conns w nid).foldl (fun acc c => (disconnect_from acc nid c true).1) w,
      ⟨net.nodes.erase nid⟩, true)
  else (w, net, false)

/-! ### Dijkstra (`Node.find_path_to`) -/

/-- Order of `heapq` entries `(cost, node_id, node)`: lexicographic on cost
then id (two distinct entries never tie on both, since a given id is only
re-pushed with a strictly smaller cost). -/
def lexLe (p q : ℝ × NodeId) : Prop := p.1 < q.1 ∨ (p.1 = q.1 ∧ p.2 ≤ q.2)

instance (p q : ℝ × NodeId) : Decidable (lexLe p q) := by
  unfold lexLe
  infer_instance

/-- `heapq.heappop`: remove a minimal entry. -/
def popMin : List (ℝ × NodeId) → Option ((ℝ × NodeId) × List (ℝ × NodeId))
  | [] => none
  | x :: xs =>
    match popMin xs with
    | none => some (x, [])
    | some (m, r) => if lexLe x m then some (x, xs) else some (m, x :: r)

/-- One relaxation of the inner `for neighbor in ...` loop of
`find_path_to`; the accumulator is `(distances, previous, pushed entries)`. -/
def relaxStep (w : World) (speed : ℝ) (cid : NodeId) (d : ℝ) (visited : List NodeId)
    (acc : List (NodeId × ℝ) × List (NodeId × NodeId) × List (ℝ × NodeId)) (nb : NodeId) :
    List (NodeId × ℝ) × List (NodeId × NodeId) × List (ℝ × NodeId) :=
  if nb ∈ visited then acc
  else
    let nd := d + get_travel_time_to w cid nb speed
    match aget acc.1 nb with
    | none => (aset acc.1 nb nd, aset acc.2.1 nb cid, acc.2.2 ++ [(nd, nb)])
    | some old =>
      if nd < old then (aset acc.1 nb nd, aset acc.2.1 nb cid, acc.2.2 ++ [(nd, nb)])
      else acc

/-- The whole neighbor loop for the node `cid` popped at cost `d`. -/
def relaxAll (w : World) (speed : ℝ) (cid : NodeId) (d : ℝ) (visited : List NodeId)
    (dist : List (NodeId × ℝ)) (prev : List (NodeId × NodeId)) :
    List (NodeId × ℝ) × List (NodeId × NodeId) × List (ℝ × NodeId) :=
  (conns w cid).foldl (relaxStep w speed cid d visited) (dist, prev, [])

/-- Path reconstruction, following `previous` from the target back to the
source (`while node: path.append(node); node = previous.get(node.id)`); the
chain in an actual run is acyclic and shorter than `previous`, so the fuel
`previous.length` is never exhausted. -/
def chainPrev : ℕ → List (NodeId × NodeId) → NodeId → List NodeId
  | 0, _, cur => [cur]
  | n + 1, prev, cur =>
    match aget prev cur with
    | none => [cur]
    | some p => cur :: chainPrev n prev p

/-- The main `while unvisited:` loop of `find_path_to`.  Each iteration pops
one heap entry, so the number of iterations is at most the total number of
entries ever pushed, which is at most `1 + totalConns w`; the fuel passed by
`find_path_to` strictly exceeds that bound, so the `0` case is never hit. -/
def dloop (w : World) (tgt : NodeId) (speed : ℝ) :
    ℕ → List NodeId → List (ℝ × NodeId) → List (NodeId × ℝ) → List (NodeId × NodeId) →
      Option (List NodeId × ℝ)
  | 0, _, _, _, _ => none
  | fuel + 1, visited, heap, dist, prev =>
    match popMin heap with
    | none => none
    | some ((d, cid), rest) =>
      if cid ∈ visited then dloop w tgt speed fuel visited rest dist prev
      else
        if cid = tgt then some ((chainPrev prev.length prev cid).reverse, d)
        else
          match relaxAll w speed cid d (cid :: visited) dist prev with
          | (dist2, prev2, pushes) =>
            dloop w tgt speed fuel (cid :: visited) (rest ++ pushes) dist2 prev2

/-- Sum of all connection-list lengths: bounds the number of heap pushes. -/
def totalConns (w : World) : ℕ := (w.map (fun p => p.2.conns.length)).sum

/-- `Node.find_path_to(target, speed)`: single-source Dijkstra.  The
self-path short-circuit (`if self == target_node`) precedes any search. -/
def find_path_to (w : World) (src tgt : NodeId) (speed : ℝ) : Option (List NodeId × ℝ) :=
  if src = tgt then some ([src], 0)
  else dloop w tgt speed (totalConns w + 2) [] [(0, src)] [(src, 0)] []

/-! ## Generator phases (backend/game/generate_network.py) -/

/-- The scan of `thin_connections` for the furthest connection, starting from
`furthest_connection = None, furthest_distance = 0` and keeping the first
strict maximum. -/
def argmaxAux (w : World) (nid : NodeId) :
    List NodeId → Option NodeId → ℝ → Option NodeId
  | [], best, _ => best
  | c :: rest, best, bd =>
    if get_distance_to w nid c > bd then argmaxAux w nid rest (some c) (get_distance_to w nid c)
    else argmaxAux w nid rest best bd

/-- The furthest connection of `nid`, `none` when every connection is at
distance `≤ 0` (then the source's `if furthest_connection:` skips the
disconnect and its `while` loop repeats the same state forever). -/
def furthestConn (w : World) (nid : NodeId) : Option NodeId :=
  argmaxAux w nid (conns w nid) none 0

/-- The `while num_connections > max_connections` loop of
`thin_connections` for one node.  `none` models divergence: when no strictly
positive furthest distance exists the loop body changes nothing, so the
source loops forever; the fuel (the node's degree at entry, each successful
disconnect removing exactly one connection) covers every terminating run. -/
def capNode (nid : NodeId) (maxConns : ℕ) : ℕ → World → Option World
  | 0, w => if degree w nid ≤ maxConns then some w else none
  | fuel + 1, w =>
    if degree w nid ≤ maxConns then some w
    else
      match furthestConn w nid with
      | none => none
      | some c => capNode nid maxConns fuel (disconnect_from w nid c true).1

/-- `thin_connections(network, max_connections)` over the member list
(`network.get_all_nodes()`); `none` when some node's capping loop diverges. -/
def thin_connections (w : World) (members : List NodeId) (maxConns : ℕ) : Option World :=
  members.foldl (fun acc nid => acc.bind (fun wc => capNode nid maxConns (degree wc nid) wc))
    (some w)

/-- The inner loop of `reconnect_orphaned_nodes` for an orphan `nid`:
connect (bidirectionally) to every member within `1.1 * max_distance` that is
not already connected. -/
def connectAllInRange (w : World) (nid : NodeId) (members : List NodeId) (maxd : ℝ) : World :=
  members.foldl (fun acc m =>
    if get_distance_to acc nid m ≤ maxd * 1.1 ∧ ¬ is_connected_to acc nid m then
      (connect_to acc nid m true).1
    else acc) w

/-- `reconnect_orphaned_nodes(network, max_distance)`: for every member that
cannot path to the first member (speed defaulting to 1), connect it to every
member in range.  (`find_path_to` returns a non-empty tuple or `None`, so
Python's `if not node.find_path_to(...)` is exactly the `= none` test.) -/
def reconnect_orphaned_nodes (w : World) (members : List NodeId) (maxd : ℝ) : World :=
  match members with
  | [] => w
  | ref :: _ =>
    members.foldl (fun acc nid =>
      if find_path_to acc nid ref 1 = none then connectAllInRange acc nid members maxd
      else acc) w

/-- Replace a node's location by its translation (`node.translate(...)` in
`random_pull_nodes`; the `Node` class has no such method — the call resolves
the evident intent of translating `node.location`, which is what the
rejection checks immediately read back). -/
def translateNode (w : World) (nid : NodeId) (direction distance : ℝ) : World :=
  match aget w nid with
  | none => w
  | some st => aset w nid { st with location := st.location.translate direction distance }

/-- The rejection test of one jitter attempt in `random_pull_nodes`:
some snapshotted connection stretched beyond `1.1 * max_distance`, or some
other member now within `min_distance = 0.5 * max_distance`. -/
def pull_cancelled (w : World) (nid : NodeId) (snapshot members : List NodeId)
    (maxd : ℝ) : Prop :=
  (∃ c ∈ snapshot, get_distance_to w nid c > maxd * 1.1) ∨
    (∃ m ∈ members, m ≠ nid ∧ get_distance_to w nid m ≤ maxd * 0.5)

instance (w : World) (nid : NodeId) (snapshot members : List NodeId) (maxd : ℝ) :
    Decidable (pull_cancelled w nid snapshot members maxd) := by
  unfold pull_cancelled
  infer_instance

/-- One jitter attempt of `random_pull_nodes` (phase "step 5" of the
source): translate the node, and if the attempt is rejected translate it
back by the negated arguments. -/
def random_pull_attempt (w : World) (nid : NodeId) (snapshot members : List NodeId)
    (xt yt maxd : ℝ) : World :=
  if pull_cancelled (translateNode w nid xt yt) nid snapshot members maxd then
    translateNode (translateNode w nid xt yt) nid (-xt) (-yt)
  else translateNode w nid xt yt

/-! ### C5 -/

/-- **C5.** For every world, node `a` and speed, `find_path_to a a` returns
the single-node path `[a]` with cost exactly 0, by the short-circuit that
precedes the Dijkstra search — independently of `a`'s adjacency (the world
is universally quantified and the search loop is never entered). -/
theorem C5_self_path (w : World) (a : NodeId) (speed : ℝ) :
    find_path_to w a a speed = some ([a], 0) := by
  simp [find_path_to]

/-! ### C6 and C9 -/

/-- **C6.** For distinct nodes `a` and `b` with no existing edge `a -> b`,
calling `connect_to a b` twice returns `True` then `False`, the second call
changes nothing, and `a`'s degree grows by exactly one in total. -/
theorem C6_connect_idempotent (w : World) (a b : NodeId) (bidirectional : Bool)
    (sa : NodeState) (ha : aget w a = some sa) (hb : b ∉ sa.conns) (hab : a ≠ b) :
    (connect_to w a b bidirectional).2 = true ∧
      (connect_to (connect_to w a b bidirectional).1 a b bidirectional).2 = false ∧
      (connect_to (connect_to w a b bidirectional).1 a b bidirectional).1 =
        (connect_to w a b bidirectional).1 ∧
      degree (connect_to w a b bidirectional).1 a = degree w a + 1 := by
  have hback : ∀ w1 : World, aget (connect_back w1 a b bidirectional) a = aget w1 a := by
    intro w1
    unfold connect_back
    cases bidirectional with
    | false => rfl
    | true =>
      simp only [if_true]
      cases hgb : aget w1 b with
      | none => rfl
      | some sb =>
        by_cases hmem : a ∈ sb.conns
        · simp [hmem]
        · simp [hmem, aget_aset_ne _ _ (Ne.symm hab)]
  have hsa' : aget (connect_to w a b bidirectional).1 a =
      some { sa with conns := sa.conns ++ [b] } := by
    simp only [connect_to, ha, if_neg hb]
    rw [hback, aget_aset_self]
  have hres : (connect_to w a b bidirectional).2 = true := by
    simp only [connect_to, ha, if_neg hb]
  have hsecond : ∀ W : World, aget W a = some { sa with conns := sa.conns ++ [b] } →
      connect_to W a b bidirectional = (W, false) := by
    intro W hW
    simp only [connect_to, hW]
    simp [List.mem_append]
  refine ⟨hres, ?_, ?_, ?_⟩
  · rw [hsecond _ hsa']
  · rw [hsecond _ hsa']
  · unfold degree conns
    rw [hsa', ha]
    simp

/-- **C6 (witness).** The idempotent-connect theorem at a concrete two-node
world. -/
theorem C6_connect_idempotent_witness :
    (connect_to [(0, ⟨⟨0, 0⟩, []⟩), (1, ⟨⟨0, 0⟩, []⟩)] 0 1 true).2 = true ∧
      (connect_to (connect_to [(0, ⟨⟨0, 0⟩, []⟩), (1, ⟨⟨0, 0⟩, []⟩)] 0 1 true).1 0 1 true).2 =
        false ∧
      (connect_to (connect_to [(0, ⟨⟨0, 0⟩, []⟩), (1, ⟨⟨0, 0⟩, []⟩)] 0 1 true).1 0 1 true).1 =
        (connect_to [(0, ⟨⟨0, 0⟩, []⟩), (1, ⟨⟨0, 0⟩, []⟩)] 0 1 true).1 ∧
      degree (connect_to [(0, ⟨⟨0, 0⟩, []⟩), (1, ⟨⟨0, 0⟩, []⟩)] 0 1 true).1 0 =
        degree [(0, ⟨⟨0, 0⟩, []⟩), (1, ⟨⟨0, 0⟩, []⟩)] 0 + 1 :=
  C6_connect_idempotent _ 0 1 true ⟨⟨0, 0⟩, []⟩ (by simp [aget]) (by simp) (by simp)

/-- **C9.** If `b` is already in `a`'s connections, `connect_to a b` returns
`False` and the world — in particular both adjacency maps — is unchanged,
even when `bidirectional` is true and the reverse edge `b -> a` is absent:
a one-directional edge is never upgraded by a repeated connect. -/
theorem C9_connect_noop (w : World) (a b : NodeId) (bidirectional : Bool)
    (h : b ∈ conns w a) : connect_to w a b bidirectional = (w, false) := by
  unfold conns at h
  unfold connect_to
  cases hga : aget w a with
  | none => rfl
  | some sa =>
    rw [hga] at h
    simp only [if_pos h]

/-- **C9 (witness).** The no-op theorem at a world with the one-directional
edge `0 -> 1` and no reverse edge. -/
theorem C9_connect_noop_witness :
    connect_to [(0, ⟨⟨0, 0⟩, [1]⟩), (1, ⟨⟨0, 0⟩, []⟩)] 0 1 true =
      ([(0, ⟨⟨0, 0⟩, [1]⟩), (1, ⟨⟨0, 0⟩, []⟩)], false) :=
  C9_connect_noop _ 0 1 true (by simp [conns, aget])

/-! ### C2 -/

/-- **C2 (failing input).** Network `{0, 1}` where node 1 holds the
one-directional edge `1 -> 0` and node 0 holds no edges.  `remove_node 0`
returns success and deletes 0 from the node map, but the cascade only walks
node 0's *own* connections (empty here), so the remaining member 1 keeps the
dangling adjacency reference to 0 — contradicting the claimed (and spec-
mandated) invariant that no dangling adjacency reference survives. -/
theorem C2_remove_dangling :
    (remove_node [(0, ⟨⟨0, 0⟩, []⟩), (1, ⟨⟨0, 0⟩, [0]⟩)] ⟨[0, 1]⟩ 0).2.2 = true ∧
      (remove_node [(0, ⟨⟨0, 0⟩, []⟩), (1, ⟨⟨0, 0⟩, [0]⟩)] ⟨[0, 1]⟩ 0).2.1.nodes = [1] ∧
      0 ∈ conns (remove_node [(0, ⟨⟨0, 0⟩, []⟩), (1, ⟨⟨0, 0⟩, [0]⟩)] ⟨[0, 1]⟩ 0).1 1 := by
  refine ⟨rfl, rfl, ?_⟩
  simp [remove_node, conns, aget]

/-! ### C7 -/

/-- **C7 (failing input).** With nodes at distance 2 and speed `-1`,
`get_travel_time_to` performs no speed validation at all: it simply returns
`distance / speed = -2` — a negative "travel time" instead of the
fail-fast descriptive usage error the claim requires. -/
theorem C7_negative_speed :
    get_travel_time_to [(0, ⟨⟨0, 0⟩, []⟩), (1, ⟨⟨2, 0⟩, []⟩)] 0 1 (-1) = -2 ∧
      get_travel_time_to [(0, ⟨⟨0, 0⟩, []⟩), (1, ⟨⟨2, 0⟩, []⟩)] 0 1 (-1) < 0 := by
  have h : get_travel_time_to [(0, ⟨⟨0, 0⟩, []⟩), (1, ⟨⟨2, 0⟩, []⟩)] 0 1 (-1) = -2 := by
    show GeoLocation.get_distance_to_point ⟨0, 0⟩ ⟨2, 0⟩ / (-1) = -2
    rw [gdp_0_2]
    norm_num
  exact ⟨h, by rw [h]; norm_num⟩

/-! ### Translation along bearing 0 (due north), for C8 -/

/-- Exact evaluation of `translate` when starting on the prime meridian with
bearing 0: the raw new latitude is `lat + dist` (then clamped), and the
longitude stays 0, provided the `atan2` x-argument is nonnegative. -/
theorem translate_north (lat dist : ℝ)
    (h1 : -90 ≤ lat + dist) (h2 : lat + dist ≤ 90)
    (hC : Real.sin (radOf lat) * Real.sin (radOf (lat + dist)) ≤ Real.cos (radOf dist)) :
    GeoLocation.translate ⟨lat, 0⟩ 0 dist = ⟨max (-45) (min 45 (lat + dist)), 0⟩ := by
  have hpi := Real.pi_pos
  have hb1 : -(Real.pi / 2) ≤ radOf (lat + dist) := by
    unfold radOf
    nlinarith
  have hb2 : radOf (lat + dist) ≤ Real.pi / 2 := by
    unfold radOf
    nlinarith
  have htlat : GeoLocation.tlat ⟨lat, 0⟩ 0 dist = radOf (lat + dist) := by
    unfold GeoLocation.tlat
    show Real.arcsin (Real.sin (radOf lat) * Real.cos (radOf dist) +
      Real.cos (radOf lat) * Real.sin (radOf dist) * Real.cos (radOf 0)) = _
    rw [radOf_zero, Real.cos_zero, mul_one, ← Real.sin_add]
    have hadd : radOf lat + radOf dist = radOf (lat + dist) := by
      unfold radOf
      ring
    rw [hadd]
    exact Real.arcsin_sin hb1 hb2
  have htlon : GeoLocation.tlon ⟨lat, 0⟩ 0 dist = 0 := by
    unfold GeoLocation.tlon
    rw [htlat]
    show radOf 0 + atan2 (Real.sin (radOf 0) * Real.sin (radOf dist) * Real.cos (radOf lat))
      (Real.cos (radOf dist) - Real.sin (radOf lat) * Real.sin (radOf (lat + dist))) = 0
    rw [radOf_zero, Real.sin_zero, zero_mul, zero_mul]
    rw [atan2_zero_nonneg (by linarith)]
    norm_num
  unfold GeoLocation.translate
  rw [htlat, htlon, degOf_zero, radOf_degOf]
  have hmod : pymod (0 + 180) 360 - 180 = 0 := by
    unfold pymod
    norm_num
  rw [hmod]

theorem translate_42_north_5 :
    GeoLocation.translate ⟨42, 0⟩ 0 5 = ⟨45, 0⟩ := by
  have hpi := Real.pi_pos
  have hC : Real.sin (radOf 42) * Real.sin (radOf (42 + 5)) ≤ Real.cos (radOf 5) := by
    have h47 : Real.sin (radOf (42 + 5)) = Real.cos (radOf 43) := by
      rw [← Real.cos_pi_div_two_sub]
      congr 1
      unfold radOf
      ring
    have h47nn : (0 : ℝ) ≤ Real.sin (radOf (42 + 5)) := by
      apply Real.sin_nonneg_of_nonneg_of_le_pi
      · unfold radOf
        positivity
      · unfold radOf
        linarith
    have hprod : Real.sin (radOf 42) * Real.sin (radOf (42 + 5)) ≤ Real.sin (radOf (42 + 5)) :=
      mul_le_of_le_one_left h47nn (Real.sin_le_one _)
    have hcos : Real.cos (radOf 43) ≤ Real.cos (radOf 5) := by
      apply Real.cos_le_cos_of_nonneg_of_le_pi
      · unfold radOf
        positivity
      · unfold radOf
        linarith
      · unfold radOf
        linarith
    rw [h47] at hprod ⊢
    linarith
  have h := translate_north 42 5 (by norm_num) (by norm_num) hC
  rw [h]
  norm_num

theorem translate_45_north_neg5 :
    GeoLocation.translate ⟨45, 0⟩ 0 (-5) = ⟨40, 0⟩ := by
  have hpi := Real.pi_pos
  have hC : Real.sin (radOf 45) * Real.sin (radOf (45 + -5)) ≤ Real.cos (radOf (-5)) := by
    have hneg : Real.cos (radOf (-5)) = Real.cos (radOf 5) := by
      have : radOf (-5) = -(radOf 5) := by
        unfold radOf
        ring
      rw [this, Real.cos_neg]
    have h45 : Real.sin (radOf 45) = Real.cos (radOf 45) := by
      rw [← Real.cos_pi_div_two_sub]
      congr 1
      unfold radOf
      ring
    have h45nn : (0 : ℝ) ≤ Real.sin (radOf 45) := by
      apply Real.sin_nonneg_of_nonneg_of_le_pi
      · unfold radOf
        positivity
      · unfold radOf
        linarith
    have hprod : Real.sin (radOf 45) * Real.sin (radOf (45 + -5)) ≤ Real.sin (radOf 45) :=
      mul_le_of_le_one_right h45nn (Real.sin_le_one _)
    have hcos : Real.cos (radOf 45) ≤ Real.cos (radOf 5) := by
      apply Real.cos_le_cos_of_nonneg_of_le_pi
      · unfold radOf
        positivity
      · unfold radOf
        linarith
      · unfold radOf
        linarith
    rw [hneg, h45] at *
    linarith
  have h := translate_north 45 (-5) (by norm_num) (by norm_num) hC
  rw [h]
  norm_num

/-- Distance between latitudes 45 and 40 on the prime meridian: 5 degrees. -/
theorem gdp_45_40 :
    GeoLocation.get_distance_to_point ⟨45, 0⟩ ⟨40, 0⟩ = 5 := by
  have h := gdp_same_lon_eval (p := ⟨45, 0⟩) (q := ⟨40, 0⟩) (x := Real.pi / 72) rfl
    (by right
        show (radOf 40 - radOf 45) / 2 = -(Real.pi / 72)
        unfold radOf
        field_simp
        ring)
    (by positivity) (by linarith [Real.pi_pos])
  rw [h]
  unfold degOf
  field_simp
  ring

/-! ### C8 -/

/-- The two-node world of the C8 concrete run: node 0 at `(42, 0)` (the node
being jittered, no connections) and node 1 at `(40, 0)`. -/
def pullWorld : World := [(0, ⟨⟨42, 0⟩, []⟩), (1, ⟨⟨40, 0⟩, []⟩)]

theorem translateNode_pull_eval :
    translateNode pullWorld 0 0 5 = [(0, ⟨⟨45, 0⟩, []⟩), (1, ⟨⟨40, 0⟩, []⟩)] := by
  unfold translateNode pullWorld
  simp [aget, aset, translate_42_north_5]

theorem translateNode_pull_back_eval :
    translateNode [(0, ⟨⟨45, 0⟩, []⟩), (1, ⟨⟨40, 0⟩, []⟩)] 0 (-0) (-5) =
      [(0, ⟨⟨40, 0⟩, []⟩), (1, ⟨⟨40, 0⟩, []⟩)] := by
  unfold translateNode
  simp [aget, aset, translate_45_north_neg5]

/-- After moving node 0 north by 5 (to latitude 45, clamped), node 1 at
latitude 40 is at distance 5 = `min_distance`, so the attempt is rejected. -/
theorem pull_cancelled_eval :
    pull_cancelled (translateNode pullWorld 0 0 5) 0 [] [0, 1] 10 := by
  rw [translateNode_pull_eval]
  right
  refine ⟨1, by simp, by norm_num, ?_⟩
  show GeoLocation.get_distance_to_point ⟨45, 0⟩ ⟨40, 0⟩ ≤ 10 * 0.5
  rw [gdp_45_40]
  norm_num

/-- **C8 (counterexample).** In `pullWorld` the jitter attempt `(0, 5)` on
node 0 is rejected (node 1 ends up within min-distance), and the revert step
`translate(-0, -5)` leaves node 0 at latitude 40, **not** at its original
latitude 42: the raw move to latitude 47 was clamped to 45, and reverting
from 45 gives 40 — the revert is not an exact round-trip. -/
theorem C8_counterexample :
    pull_cancelled (translateNode pullWorld 0 0 5) 0 [] [0, 1] 10 ∧
      locOf pullWorld 0 = some ⟨42, 0⟩ ∧
      locOf (random_pull_attempt pullWorld 0 [] [0, 1] 0 5 10) 0 = some ⟨40, 0⟩ ∧
      (⟨40, 0⟩ : GeoLocation) ≠ ⟨42, 0⟩ := by
  refine ⟨pull_cancelled_eval, rfl, ?_, ?_⟩
  · unfold random_pull_attempt
    rw [if_pos pull_cancelled_eval, translateNode_pull_eval, translateNode_pull_back_eval]
    rfl
  · intro h
    have : (40 : ℝ) = 42 := congrArg GeoLocation.latitude h
    norm_num at this

/-- **C8 (amended).** For every node and every attempted jitter translation
that is rejected, the revert step applies the *negated* translation — the
final location is `translate (translate loc xt yt) (-xt) (-yt)` — which need
not (and in general does not) equal the location before the attempt, e.g.
when the forward move was latitude-clamped. -/
theorem C8_pull_revert (w : World) (nid : NodeId) (snapshot members : List NodeId)
    (xt yt maxd : ℝ) (st : NodeState) (hst : aget w nid = some st)
    (hcancel : pull_cancelled (translateNode w nid xt yt) nid snapshot members maxd) :
    locOf (random_pull_attempt w nid snapshot members xt yt maxd) nid =
      some ((st.location.translate xt yt).translate (-xt) (-yt)) := by
  have h1 : translateNode w nid xt yt =
      aset w nid { st with location := st.location.translate xt yt } := by
    unfold translateNode
    rw [hst]
  unfold random_pull_attempt
  rw [if_pos hcancel, h1]
  unfold translateNode
  rw [aget_aset_self]
  unfold locOf
  rw [aget_aset_self]
  rfl

/-- **C8 (witness).** The amended revert-shape theorem at the concrete
rejected attempt of `pullWorld`. -/
theorem C8_pull_revert_witness :
    locOf (random_pull_attempt pullWorld 0 [] [0, 1] 0 5 10) 0 =
      some ((GeoLocation.translate ⟨42, 0⟩ 0 5).translate (-0) (-5)) :=
  C8_pull_revert pullWorld 0 [] [0, 1] 0 5 10 ⟨⟨42, 0⟩, []⟩ rfl pull_cancelled_eval

/-! ### Effect of `disconnect_from` on connection lists, for C4 -/

theorem conns_aset_self (w : World) (i : NodeId) (v : NodeState) :
    conns (aset w i v) i = v.conns := by
  unfold conns
  rw [aget_aset_self]

theorem conns_aset_ne (w : World) {i j : NodeId} (v : NodeState) (h : i ≠ j) :
    conns (aset w i v) j = conns w j := by
  unfold conns
  rw [aget_aset_ne _ _ h]

theorem locOf_aset_self (w : World) (i : NodeId) (v : NodeState) :
    locOf (aset w i v) i = some v.location := by
  unfold locOf
  rw [aget_aset_self]
  rfl

theorem locOf_aset_ne (w : World) {i j : NodeId} (v : NodeState) (h : i ≠ j) :
    locOf (aset w i v) j = locOf w j := by
  unfold locOf
  rw [aget_aset_ne _ _ h]

/-- `disconnect_back` only ever erases elements from one connection list. -/
theorem conns_disconnect_back_sublist (w1 : World) (a b : NodeId) (bidir : Bool)
    (j : NodeId) : List.Sublist (conns (disconnect_back w1 a b bidir) j) (conns w1 j) := by
  unfold disconnect_back
  cases bidir with
  | false => exact List.Sublist.refl _
  | true =>
    simp only [if_true]
    cases hgb : aget w1 b with
    | none => exact List.Sublist.refl _
    | some sb =>
      by_cases hmem : a ∈ sb.conns
      · simp only [if_pos hmem]
        by_cases hbj : b = j
        · subst hbj
          rw [conns_aset_self]
          have : conns w1 b = sb.conns := by
            unfold conns
            rw [hgb]
          rw [this]
          exact List.erase_sublist _ _
        · rw [conns_aset_ne _ _ hbj]
      · simp only [if_neg hmem]
        exact List.Sublist.refl _

/-- `disconnect_from` only ever erases elements from connection lists. -/
theorem conns_disconnect_sublist (w : World) (a b : NodeId) (bidir : Bool) (j : NodeId) :
    List.Sublist (conns ((disconnect_from w a b bidir).1) j) (conns w j) := by
  unfold disconnect_from
  cases hga : aget w a with
  | none => exact List.Sublist.refl _
  | some sa =>
    by_cases hb : b ∈ sa.conns
    · simp only [if_pos hb]
      have hsub1 : ∀ k, List.Sublist (conns (aset w a { sa with conns := sa.conns.erase b }) k) (conns w k) := by
        intro k
        by_cases hak : a = k
        · subst hak
          rw [conns_aset_self]
          have : conns w a = sa.conns := by
            unfold conns
            rw [hga]
          rw [this]
          exact List.erase_sublist _ _
        · rw [conns_aset_ne _ _ hak]
      exact (conns_disconnect_back_sublist _ a b bidir j).trans (hsub1 j)
    · simp only [if_neg hb]
      exact List.Sublist.refl _

theorem locOf_disconnect_back (w1 : World) (a b : NodeId) (bidir : Bool) (j : NodeId) :
    locOf (disconnect_back w1 a b bidir) j = locOf w1 j := by
  unfold disconnect_back
  cases bidir with
  | false => rfl
  | true =>
    simp only [if_true]
    cases hgb : aget w1 b with
    | none => rfl
    | some sb =>
      by_cases hmem : a ∈ sb.conns
      · simp only [if_pos hmem]
        by_cases hbj : b = j
        · subst hbj
          rw [locOf_aset_self]
          unfold locOf
          rw [hgb]
          rfl
        · rw [locOf_aset_ne _ _ hbj]
      · simp only [if_neg hmem]

theorem locOf_disconnect (w : World) (a b : NodeId) (bidir : Bool) (j : NodeId) :
    locOf ((disconnect_from w a b bidir).1) j = locOf w j := by
  unfold disconnect_from
  cases hga : aget w a with
  | none => rfl
  | some sa =>
    by_cases hb : b ∈ sa.conns
    · simp only [if_pos hb]
      rw [locOf_disconnect_back]
      by_cases hak : a = j
      · subst hak
        rw [locOf_aset_self]
        unfold locOf
        rw [hga]
        rfl
      · rw [locOf_aset_ne _ _ hak]
    · simp only [if_neg hb]

/-- Distances only depend on locations. -/
theorem gd_eq_of_locOf {w1 w2 : World} (h : ∀ j, locOf w2 j = locOf w1 j) (x y : NodeId) :
    get_distance_to w2 x y = get_distance_to w1 x y := by
  unfold get_distance_to
  rw [h x, h y]

/-- Removing the edge `a -> b` strictly lowers `a`'s degree. -/
theorem degree_disconnect_lt (w : World) {a b : NodeId} (hb : b ∈ conns w a) :
    degree ((disconnect_from w a b true).1) a < degree w a := by
  unfold conns at hb
  cases hga : aget w a with
  | none =>
    simp only [hga] at hb
    simp at hb
  | some sa =>
    simp only [hga] at hb
    have hd : degree w a = sa.conns.length := by
      unfold degree conns
      rw [hga]
    have hstep : (disconnect_from w a b true).1 =
        disconnect_back (aset w a { sa with conns := sa.conns.erase b }) a b true := by
      unfold disconnect_from
      rw [hga]
      simp only [if_pos hb]
    rw [hstep, hd]
    have h1 : List.Sublist (conns (disconnect_back (aset w a { sa with conns := sa.conns.erase b }) a b true)
        a) (sa.conns.erase b) := by
      have := conns_disconnect_back_sublist (aset w a { sa with conns := sa.conns.erase b })
        a b true a
      rwa [conns_aset_self] at this
    calc degree (disconnect_back (aset w a { sa with conns := sa.conns.erase b }) a b true) a
        ≤ (sa.conns.erase b).length := h1.length_le
      _ = sa.conns.length - 1 := List.length_erase_of_mem hb
      _ < sa.conns.length := by
          have : 0 < sa.conns.length := List.length_pos.mpr (by
            intro hnil
            rw [hnil] at hb
            simp at hb)
          omega

/-! ### The furthest-connection scan of `thin_connections` -/

theorem argmaxAux_none (w : World) (nid : NodeId) :
    ∀ (l : List NodeId) (best : Option NodeId) (bd : ℝ),
      argmaxAux w nid l best bd = none →
      best = none ∧ ∀ c ∈ l, get_distance_to w nid c ≤ bd := by
  intro l
  induction l with
  | nil =>
    intro best bd h
    exact ⟨h, by simp⟩
  | cons c rest ih =>
    intro best bd h
    unfold argmaxAux at h
    by_cases hgt : get_distance_to w nid c > bd
    · rw [if_pos hgt] at h
      exact absurd (ih _ _ h).1 (by simp)
    · rw [if_neg hgt] at h
      obtain ⟨h1, h2⟩ := ih _ _ h
      refine ⟨h1, fun d hd => ?_⟩
      rcases List.mem_cons.mp hd with rfl | hd
      · exact not_lt.mp hgt
      · exact h2 d hd

theorem argmaxAux_some (w : World) (nid : NodeId) :
    ∀ (l : List NodeId) (best : Option NodeId) (bd : ℝ) (c : NodeId),
      (∀ b, best = some b → get_distance_to w nid b = bd) →
      argmaxAux w nid l best bd = some c →
      (best = some c ∨ c ∈ l) ∧ bd ≤ get_distance_to w nid c ∧
        ∀ d ∈ l, get_distance_to w nid d ≤ get_distance_to w nid c := by
  intro l
  induction l with
  | nil =>
    intro best bd c hinv h
    rw [show argmaxAux w nid [] best bd = best from rfl] at h
    refine ⟨Or.inl h, le_of_eq (hinv c h).symm, by simp⟩
  | cons e rest ih =>
    intro best bd c hinv h
    unfold argmaxAux at h
    by_cases hgt : get_distance_to w nid e > bd
    · rw [if_pos hgt] at h
      obtain ⟨hm, hle, hall⟩ := ih (some e) (get_distance_to w nid e) c
        (by intro b hb; injection hb with hb; rw [hb]) h
      refine ⟨?_, le_of_lt (lt_of_lt_of_le hgt hle), fun d hd => ?_⟩
      · rcases hm with hm | hm
        · injection hm with hm
          exact Or.inr (by rw [hm]; exact List.mem_cons_self _ _)
        · exact Or.inr (List.mem_cons_of_mem _ hm)
      · rcases List.mem_cons.mp hd with rfl | hd
        · exact hle
        · exact hall d hd
    · rw [if_neg hgt] at h
      obtain ⟨hm, hle, hall⟩ := ih best bd c hinv h
      refine ⟨?_, hle, fun d hd => ?_⟩
      · rcases hm with hm | hm
        · exact Or.inl hm
        · exact Or.inr (List.mem_cons_of_mem _ hm)
      · rcases List.mem_cons.mp hd with rfl | hd
        · exact le_trans (not_lt.mp hgt) hle
        · exact hall d hd

/-- The furthest-connection scan returns a connection of maximal distance
among the node's remaining connections. -/
theorem furthestConn_spec (w : World) (nid c : NodeId)
    (h : furthestConn w nid = some c) :
    c ∈ conns w nid ∧
      ∀ d ∈ conns w nid, get_distance_to w nid d ≤ get_distance_to w nid c := by
  obtain ⟨hm, _, hall⟩ := argmaxAux_some w nid (conns w nid) none 0 c
    (by intro b hb; cases hb) h
  rcases hm with hm | hm
  · cases hm
  · exact ⟨hm, hall⟩

/-! ### Termination and postcondition of the capping loop -/

theorem capNode_success (nid : NodeId) (cap : ℕ) :
    ∀ (fuel : ℕ) (wc : World), degree wc nid ≤ fuel →
      (∀ c ∈ conns wc nid, 0 < get_distance_to wc nid c) →
      ∃ w', capNode nid cap fuel wc = some w' ∧ degree w' nid ≤ cap ∧
        (∀ j, locOf w' j = locOf wc j) ∧ (∀ j, List.Sublist (conns w' j) (conns wc j)) := by
  intro fuel
  induction fuel with
  | zero =>
    intro wc hfuel hpos
    have h0 : degree wc nid = 0 := Nat.le_zero.mp hfuel
    refine ⟨wc, ?_, by omega, fun j => rfl, fun j => List.Sublist.refl _⟩
    unfold capNode
    rw [if_pos (by omega)]
  | succ fuel ih =>
    intro wc hfuel hpos
    by_cases hd : degree wc nid ≤ cap
    · refine ⟨wc, ?_, hd, fun j => rfl, fun j => List.Sublist.refl _⟩
      unfold capNode
      rw [if_pos hd]
    · cases hfc : furthestConn wc nid with
      | none =>
        exfalso
        obtain ⟨-, hall⟩ := argmaxAux_none wc nid (conns wc nid) none 0 hfc
        have hne : conns wc nid ≠ [] := by
          intro hnil
          unfold degree at hd
          rw [hnil] at hd
          simp at hd
        obtain ⟨c0, hc0⟩ := List.exists_mem_of_ne_nil _ hne
        exact absurd (hall c0 hc0) (not_le.mpr (hpos c0 hc0))
      | some c =>
        have hcmem : c ∈ conns wc nid := (furthestConn_spec wc nid c hfc).1
        have hdec := degree_disconnect_lt wc hcmem
        have hloc2 := locOf_disconnect wc nid c true
        have hsub2 := conns_disconnect_sublist wc nid c true
        obtain ⟨w', hcap, hdeg, hloc3, hsub3⟩ :=
          ih ((disconnect_from wc nid c true).1) (by omega)
            (fun d hd' => by
              rw [gd_eq_of_locOf hloc2]
              exact hpos d ((hsub2 nid).mem hd'))
        refine ⟨w', ?_, hdeg, fun j => (hloc3 j).trans (hloc2 j), fun j =>
          (hsub3 j).trans (hsub2 j)⟩
        unfold capNode
        rw [if_neg hd, hfc]
        exact hcap

/-- The fold of `thin_connections` succeeds and caps every member, given
strictly positive edge lengths. -/
theorem thin_fold (cap : ℕ) :
    ∀ (ms : List NodeId) (wc : World),
      (∀ i ∈ ms, ∀ c ∈ conns wc i, 0 < get_distance_to wc i c) →
      ∃ w', ms.foldl (fun acc nid => acc.bind (fun wcc => capNode nid cap (degree wcc nid) wcc))
          (some wc) = some w' ∧
        (∀ j, locOf w' j = locOf wc j) ∧ (∀ j, List.Sublist (conns w' j) (conns wc j)) ∧
        ∀ i ∈ ms, degree w' i ≤ cap := by
  intro ms
  induction ms with
  | nil =>
    intro wc hpos
    exact ⟨wc, rfl, fun j => rfl, fun j => List.Sublist.refl _, by simp⟩
  | cons m rest ih =>
    intro wc hpos
    obtain ⟨w2, hcap2, hdeg2, hloc2, hsub2⟩ :=
      capNode_success m cap (degree wc m) wc le_rfl (hpos m (List.mem_cons_self _ _))
    obtain ⟨w', hfold, hloc3, hsub3, hdeg3⟩ := ih w2 (fun i hi c hc => by
      rw [gd_eq_of_locOf hloc2]
      exact hpos i (List.mem_cons_of_mem _ hi) c ((hsub2 i).mem hc))
    refine ⟨w', ?_, fun j => (hloc3 j).trans (hloc2 j),
      fun j => (hsub3 j).trans (hsub2 j), fun i hi => ?_⟩
    · rw [List.foldl_cons]
      rw [show (some wc).bind (fun wcc => capNode m cap (degree wcc m) wcc) =
        capNode m cap (degree wc m) wc from rfl, hcap2]
      exact hfold
    · rcases List.mem_cons.mp hi with rfl | hi
      · exact le_trans (hsub3 i).length_le hdeg2
      · exact hdeg3 i hi

/-! ### C4 -/

/-- **C4 (amended).** For every input network in which every remaining edge
has strictly positive spherical length, the degree-capping phase
(`thin_connections` with cap 3) terminates (returns `some`) and afterwards no
member's degree exceeds 3; moreover every removal performed by the phase
removes a connection of maximal remaining distance (the furthest-connection
scan returns a connection no other remaining connection exceeds). -/
theorem C4_thin_connections_cap (w : World) (members : List NodeId)
    (hpos : ∀ i ∈ members, ∀ c ∈ conns w i, 0 < get_distance_to w i c) :
    (∃ w', thin_connections w members 3 = some w' ∧ ∀ i ∈ members, degree w' i ≤ 3) ∧
      ∀ (wc : World) (nid c : NodeId), furthestConn wc nid = some c →
        c ∈ conns wc nid ∧
          ∀ d ∈ conns wc nid, get_distance_to wc nid d ≤ get_distance_to wc nid c := by
  constructor
  · obtain ⟨w', hfold, -, -, hdeg⟩ := thin_fold 3 members w hpos
    exact ⟨w', hfold, hdeg⟩
  · exact furthestConn_spec

/-- Distance from a point to itself is 0. -/
theorem gdp_origin :
    GeoLocation.get_distance_to_point ⟨0, 0⟩ ⟨0, 0⟩ = 0 := by
  have h := gdp_same_lon_eval (p := ⟨0, 0⟩) (q := ⟨0, 0⟩) (x := 0) rfl
    (by left
        show (radOf 0 - radOf 0) / 2 = 0
        norm_num)
    le_rfl (by linarith [Real.pi_pos])
  rw [h]
  simp [degOf]

/-- Distance from `(2, 0)` to `(0, 0)`: 2 degrees. -/
theorem gdp_2_0 :
    GeoLocation.get_distance_to_point ⟨2, 0⟩ ⟨0, 0⟩ = 2 := by
  have h := gdp_same_lon_eval (p := ⟨2, 0⟩) (q := ⟨0, 0⟩) (x := Real.pi / 180) rfl
    (by right
        show (radOf 0 - radOf 2) / 2 = -(Real.pi / 180)
        unfold radOf
        field_simp
        ring)
    (by positivity) (by linarith [Real.pi_pos])
  rw [h]
  unfold degOf
  field_simp

/-- A hub of degree 4 whose four neighbours all sit at the hub's own
location, so every incident edge has length exactly 0. -/
def capWorld : World :=
  [(0, ⟨⟨0, 0⟩, [1, 2, 3, 4]⟩), (1, ⟨⟨0, 0⟩, [0]⟩), (2, ⟨⟨0, 0⟩, [0]⟩),
    (3, ⟨⟨0, 0⟩, [0]⟩), (4, ⟨⟨0, 0⟩, [0]⟩)]

theorem aget_loc_const :
    ∀ (l : List (NodeId × NodeState)), (∀ p ∈ l, p.2.location = (⟨0, 0⟩ : GeoLocation)) →
      ∀ i, ((aget l i).map NodeState.location).getD ⟨0, 0⟩ = (⟨0, 0⟩ : GeoLocation) := by
  intro l
  induction l with
  | nil => intro _ i; rfl
  | cons hd tl ih =>
    intro hl i
    obtain ⟨j, v⟩ := hd
    unfold aget
    by_cases hj : j = i
    · rw [if_pos hj]
      exact hl (j, v) (List.mem_cons_self _ _)
    · rw [if_neg hj]
      exact ih (fun p hp => hl p (List.mem_cons_of_mem _ hp)) i

theorem gd_capWorld (i j : NodeId) : get_distance_to capWorld i j = 0 := by
  have hl : ∀ p ∈ capWorld, p.2.location = (⟨0, 0⟩ : GeoLocation) := by
    intro p hp
    simp only [capWorld, List.mem_cons, List.not_mem_nil, or_false] at hp
    rcases hp with rfl | rfl | rfl | rfl | rfl <;> rfl
  unfold get_distance_to locOf
  rw [aget_loc_const capWorld hl i, aget_loc_const capWorld hl j]
  exact gdp_origin

theorem furthestConn_capWorld : furthestConn capWorld 0 = none := by
  show argmaxAux capWorld 0 [1, 2, 3, 4] none 0 = none
  simp [argmaxAux, gd_capWorld]

theorem thin_fold_none (cap : ℕ) :
    ∀ ms : List NodeId,
      ms.foldl (fun acc nid => acc.bind (fun wcc => capNode nid cap (degree wcc nid) wcc))
        none = none := by
  intro ms
  induction ms with
  | nil => rfl
  | cons m rest ih =>
    rw [List.foldl_cons]
    exact ih

/-- **C4 (counterexample).** On `capWorld` — node 0 with four connections,
all of spherical length exactly 0 — the capping loop for node 0 never makes
progress: its furthest-connection scan (seeded with `furthest_distance = 0`
and a strict comparison) finds nothing, `if furthest_connection:` skips the
disconnect, and `while num_connections > max_connections` repeats the
identical state forever.  `thin_connections` here returns `none`, the
encoding of that divergence, refuting "for every input network the
degree-capping phase terminates". -/
theorem C4_counterexample :
    degree capWorld 0 = 4 ∧ thin_connections capWorld [0, 1, 2, 3, 4] 3 = none := by
  refine ⟨rfl, ?_⟩
  have h1 : capNode 0 3 (degree capWorld 0) capWorld = none := by
    show capNode 0 3 4 capWorld = none
    unfold capNode
    rw [if_neg (by decide), furthestConn_capWorld]
  unfold thin_connections
  rw [List.foldl_cons,
    show ((some capWorld).bind fun wcc => capNode 0 3 (degree wcc 0) wcc) = none from h1,
    thin_fold_none 3 [1, 2, 3, 4]]

/-- Two nodes at distance 2 joined by one bidirectional edge. -/
def thinWorld : World := [(0, ⟨⟨0, 0⟩, [1]⟩), (1, ⟨⟨2, 0⟩, [0]⟩)]

/-- **C4 (witness).** The amended capping theorem applied to `thinWorld`,
whose single edge has length 2 > 0. -/
theorem C4_thin_connections_cap_witness :
    (∃ w', thin_connections thinWorld [0, 1] 3 = some w' ∧
        ∀ i ∈ [0, 1], degree w' i ≤ 3) ∧
      ∀ (wc : World) (nid c : NodeId), furthestConn wc nid = some c →
        c ∈ conns wc nid ∧
          ∀ d ∈ conns wc nid, get_distance_to wc nid d ≤ get_distance_to wc nid c := by
  refine C4_thin_connections_cap thinWorld [0, 1] ?_
  intro i hi c hc
  have hi' : i = 0 ∨ i = 1 := by simpa using hi
  rcases hi' with rfl | rfl
  · have hc' : c = 1 := by
      have : c ∈ [1] := hc
      simpa using this
    subst hc'
    show 0 < GeoLocation.get_distance_to_point ⟨0, 0⟩ ⟨2, 0⟩
    rw [gdp_0_2]
    norm_num
  · have hc' : c = 0 := by
      have : c ∈ [0] := hc
      simpa using this
    subst hc'
    show 0 < GeoLocation.get_distance_to_point ⟨2, 0⟩ ⟨0, 0⟩
    rw [gdp_2_0]
    norm_num

/-! ## Graph reachability and the Dijkstra loop, for C3 -/

/-- The directed edge relation of the object graph: `v` is listed in `u`'s
connections. -/
def edgeRel (w : World) (u v : NodeId) : Prop := v ∈ conns w u

/-- `t` can be reached from `s` by following connections. -/
def Reachable (w : World) (s t : NodeId) : Prop :=
  Relation.ReflTransGen (edgeRel w) s t

theorem popMin_none {l : List (ℝ × NodeId)} (h : popMin l = none) : l = [] := by
  cases l with
  | nil => rfl
  | cons x xs =>
    exfalso
    unfold popMin at h
    cases hxs : popMin xs with
    | none =>
      simp only [hxs] at h
      exact Option.noConfusion h
    | some pr =>
      obtain ⟨m, r⟩ := pr
      simp only [hxs] at h
      by_cases hle : lexLe x m
      · rw [if_pos hle] at h
        exact Option.noConfusion h
      · rw [if_neg hle] at h
        exact Option.noConfusion h

theorem popMin_perm :
    ∀ {l : List (ℝ × NodeId)} {p : ℝ × NodeId} {r : List (ℝ × NodeId)},
      popMin l = some (p, r) → l.Perm (p :: r) := by
  intro l
  induction l with
  | nil =>
    intro p r h
    exact Option.noConfusion h
  | cons x xs ih =>
    intro p r h
    unfold popMin at h
    cases hxs : popMin xs with
    | none =>
      simp only [hxs] at h
      obtain ⟨rfl, rfl⟩ := h
      have : xs = [] := popMin_none hxs
      subst this
      exact List.Perm.refl _
    | some pr =>
      obtain ⟨m, rr⟩ := pr
      simp only [hxs] at h
      have hperm := ih hxs
      by_cases hle : lexLe x m
      · rw [if_pos hle] at h
        injection h with h
        obtain ⟨rfl, rfl⟩ := Prod.mk.inj h
        exact List.Perm.refl _
      · rw [if_neg hle] at h
        injection h with h
        obtain ⟨rfl, rfl⟩ := Prod.mk.inj h
        exact (hperm.cons x).trans (List.Perm.swap _ _ _)

theorem popMin_mem {l : List (ℝ × NodeId)} {p : ℝ × NodeId} {r : List (ℝ × NodeId)}
    (h : popMin l = some (p, r)) {q : ℝ × NodeId} (hq : q ∈ l) : q = p ∨ q ∈ r := by
  have := (popMin_perm h).mem_iff.mp hq
  simpa using this

theorem popMin_length {l : List (ℝ × NodeId)} {p : ℝ × NodeId} {r : List (ℝ × NodeId)}
    (h : popMin l = some (p, r)) : l.length = r.length + 1 := by
  have := (popMin_perm h).length_eq
  simpa using this

theorem relaxAll_eq (w : World) (speed : ℝ) (cid : NodeId) (d : ℝ) (visited : List NodeId)
    (dist : List (NodeId × ℝ)) (prev : List (NodeId × NodeId)) :
    relaxAll w speed cid d visited dist prev =
      (conns w cid).foldl (relaxStep w speed cid d visited) (dist, prev, []) := rfl

/-- Behaviour of one relaxation step: the pushed list grows by at most the
one entry `(nd, nb)`, distance keys are never removed, the processed
neighbour ends up visited or keyed, and any new key was pushed. -/
theorem relaxStep_spec (w : World) (speed : ℝ) (cid : NodeId) (d : ℝ)
    (visited : List NodeId)
    (acc : List (NodeId × ℝ) × List (NodeId × NodeId) × List (ℝ × NodeId)) (nb : NodeId) :
    ((relaxStep w speed cid d visited acc nb).2.2 = acc.2.2 ∨
        ∃ nd, (relaxStep w speed cid d visited acc nb).2.2 = acc.2.2 ++ [(nd, nb)]) ∧
      (∀ i, aget acc.1 i ≠ none → aget (relaxStep w speed cid d visited acc nb).1 i ≠ none) ∧
      (nb ∈ visited ∨ aget (relaxStep w speed cid d visited acc nb).1 nb ≠ none) ∧
      (∀ i, aget (relaxStep w speed cid d visited acc nb).1 i ≠ none →
        aget acc.1 i ≠ none ∨
          (i = nb ∧ ∃ nd, (nd, nb) ∈ (relaxStep w speed cid d visited acc nb).2.2)) := by
  unfold relaxStep
  by_cases hv : nb ∈ visited
  · rw [if_pos hv]
    exact ⟨Or.inl rfl, fun i h => h, Or.inl hv, fun i h => Or.inl h⟩
  · rw [if_neg hv]
    cases hag : aget acc.1 nb with
    | none =>
      simp only [hag]
      refine ⟨Or.inr ⟨_, rfl⟩, fun i h => ?_, Or.inr ?_, fun i h => ?_⟩
      · by_cases hib : nb = i
        · subst hib
          rw [aget_aset_self]
          exact fun hc => Option.noConfusion hc
        · rw [aget_aset_ne _ _ hib]
          exact h
      · rw [aget_aset_self]
        exact fun hc => Option.noConfusion hc
      · by_cases hib : i = nb
        · exact Or.inr ⟨hib, _, List.mem_append_right _ (List.mem_singleton_self _)⟩
        · rw [aget_aset_ne _ _ (Ne.symm hib)] at h
          exact Or.inl h
    | some old =>
      simp only [hag]
      by_cases hlt : d + get_travel_time_to w cid nb speed < old
      · rw [if_pos hlt]
        refine ⟨Or.inr ⟨_, rfl⟩, fun i h => ?_, Or.inr ?_, fun i h => ?_⟩
        · by_cases hib : nb = i
          · subst hib
            rw [aget_aset_self]
            exact fun hc => Option.noConfusion hc
          · rw [aget_aset_ne _ _ hib]
            exact h
        · rw [aget_aset_self]
          exact fun hc => Option.noConfusion hc
        · by_cases hib : i = nb
          · exact Or.inr ⟨hib, _, List.mem_append_right _ (List.mem_singleton_self _)⟩
          · rw [aget_aset_ne _ _ (Ne.symm hib)] at h
            exact Or.inl h
      · rw [if_neg hlt]
        exact ⟨Or.inl rfl, fun i h => h, Or.inr (by rw [hag]; exact fun hc => Option.noConfusion hc),
          fun i h => Or.inl h⟩

/-- Accumulated behaviour of the whole neighbour loop. -/
theorem relaxFold_spec (w : World) (speed : ℝ) (cid : NodeId) (d : ℝ)
    (visited : List NodeId) :
    ∀ (l : List NodeId)
      (acc : List (NodeId × ℝ) × List (NodeId × NodeId) × List (ℝ × NodeId)),
      ((l.foldl (relaxStep w speed cid d visited) acc).2.2.length ≤
          acc.2.2.length + l.length) ∧
        (∀ q ∈ (l.foldl (relaxStep w speed cid d visited) acc).2.2,
          q ∈ acc.2.2 ∨ q.2 ∈ l) ∧
        (∀ i, aget acc.1 i ≠ none →
          aget (l.foldl (relaxStep w speed cid d visited) acc).1 i ≠ none) ∧
        (∀ i ∈ l, i ∈ visited ∨
          aget (l.foldl (relaxStep w speed cid d visited) acc).1 i ≠ none) ∧
        (∀ i, aget (l.foldl (relaxStep w speed cid d visited) acc).1 i ≠ none →
          aget acc.1 i ≠ none ∨
            ∃ q ∈ (l.foldl (relaxStep w speed cid d visited) acc).2.2, q.2 = i) ∧
        (∀ q ∈ acc.2.2, q ∈ (l.foldl (relaxStep w speed cid d visited) acc).2.2) := by
  intro l
  induction l with
  | nil =>
    intro acc
    exact ⟨by simp, fun q hq => Or.inl hq, fun i h => h, by simp, fun i h => Or.inl h,
      fun q hq => hq⟩
  | cons e rest ih =>
    intro acc
    rw [List.foldl_cons]
    obtain ⟨slen, smono, scov, snew⟩ := relaxStep_spec w speed cid d visited acc e
    obtain ⟨ilen, iorig, imono, icov, inew, ipush⟩ := ih (relaxStep w speed cid d visited acc e)
    have hsteplen : (relaxStep w speed cid d visited acc e).2.2.length ≤ acc.2.2.length + 1 := by
      rcases slen with h | ⟨nd, h⟩ <;> rw [h] <;> simp
    have hsteppush : ∀ q ∈ acc.2.2, q ∈ (relaxStep w speed cid d visited acc e).2.2 := by
      intro q hq
      rcases slen with h | ⟨nd, h⟩ <;> rw [h]
      · exact hq
      · exact List.mem_append_left _ hq
    refine ⟨?_, ?_, ?_, ?_, ?_, ?_⟩
    · calc (rest.foldl (relaxStep w speed cid d visited)
            (relaxStep w speed cid d visited acc e)).2.2.length
          ≤ (relaxStep w speed cid d visited acc e).2.2.length + rest.length := ilen
        _ ≤ acc.2.2.length + 1 + rest.length := by omega
        _ = acc.2.2.length + (e :: rest).length := by simp [List.length_cons]; omega
    · intro q hq
      rcases iorig q hq with hq' | hq'
      · rcases slen with h | ⟨nd, h⟩
        · rw [h] at hq'
          exact Or.inl hq'
        · rw [h] at hq'
          rcases List.mem_append.mp hq' with hq'' | hq''
          · exact Or.inl hq''
          · right
            have : q = (nd, e) := by simpa using hq''
            rw [this]
            exact List.mem_cons_self _ _
      · exact Or.inr (List.mem_cons_of_mem _ hq')
    · intro i h
      exact imono i (smono i h)
    · intro i hi
      rcases List.mem_cons.mp hi with rfl | hi'
      · rcases scov with h | h
        · exact Or.inl h
        · exact Or.inr (imono i h)
      · exact icov i hi'
    · intro i h
      rcases inew i h with h' | h'
      · rcases snew i h' with h'' | ⟨rfl, nd, hnd⟩
        · exact Or.inl h''
        · exact Or.inr ⟨(nd, i), ipush _ hnd, rfl⟩
      · exact Or.inr h'
    · intro q hq
      exact ipush q (hsteppush q hq)

/-- If the Dijkstra loop returns a result, the target is reachable from the
source (every id ever on the heap is reachable). -/
theorem dloop_some_reachable (w : World) (tgt : NodeId) (speed : ℝ) (s : NodeId) :
    ∀ (fuel : ℕ) (visited : List NodeId) (heap : List (ℝ × NodeId))
      (dist : List (NodeId × ℝ)) (prev : List (NodeId × NodeId)),
      (∀ q ∈ heap, Reachable w s q.2) →
      dloop w tgt speed fuel visited heap dist prev ≠ none →
      Reachable w s tgt := by
  intro fuel
  induction fuel with
  | zero =>
    intro visited heap dist prev _ h
    exact absurd rfl h
  | succ fuel ih =>
    intro visited heap dist prev hR hne
    unfold dloop at hne
    cases hpop : popMin heap with
    | none =>
      rw [hpop] at hne
      exact absurd rfl hne
    | some pr =>
      obtain ⟨⟨d, cid⟩, rest⟩ := pr
      simp only [hpop] at hne
      have hmemheap : ((d, cid) : ℝ × NodeId) ∈ heap :=
        (popMin_perm hpop).mem_iff.mpr (List.mem_cons_self _ _)
      have hcid : Reachable w s cid := hR (d, cid) hmemheap
      have hrest : ∀ q ∈ rest, Reachable w s q.2 := fun q hq =>
        hR q ((popMin_perm hpop).mem_iff.mpr (List.mem_cons_of_mem _ hq))
      by_cases hv : cid ∈ visited
      · rw [if_pos hv] at hne
        exact ih visited rest dist prev hrest hne
      · rw [if_neg hv] at hne
        by_cases ht : cid = tgt
        · exact ht ▸ hcid
        · rw [if_neg ht] at hne
          obtain ⟨-, horig, -, -, -, -⟩ :=
            relaxFold_spec w speed cid d (cid :: visited) (conns w cid) (dist, prev, [])
          refine ih (cid :: visited)
            (rest ++ (relaxAll w speed cid d (cid :: visited) dist prev).2.2)
            (relaxAll w speed cid d (cid :: visited) dist prev).1
            (relaxAll w speed cid d (cid :: visited) dist prev).2.1 ?_ hne
          intro q hq
          rcases List.mem_append.mp hq with hq' | hq'
          · exact hrest q hq'
          · rw [relaxAll_eq] at hq'
            rcases horig q hq' with hq'' | hq''
            · exact absurd hq'' (List.not_mem_nil _)
            · exact hcid.tail hq''

/-- Sum of the connection-list lengths over the not-yet-visited entries: the
termination measure of the Dijkstra loop (together with the heap length). -/
def listConnSum : World → List NodeId → ℕ
  | [], _ => 0
  | (j, st) :: rest, visited =>
    (if j ∈ visited then 0 else st.conns.length) + listConnSum rest visited

theorem listConnSum_nil (w : World) : listConnSum w [] = totalConns w := by
  induction w with
  | nil => rfl
  | cons hd tl ih =>
    obtain ⟨j, st⟩ := hd
    unfold listConnSum totalConns
    rw [if_neg (List.not_mem_nil _)]
    unfold totalConns at ih
    simp only [List.map_cons, List.sum_cons]
    omega

theorem listConnSum_cons_le (w : World) (x : NodeId) (visited : List NodeId) :
    listConnSum w (x :: visited) ≤ listConnSum w visited := by
  induction w with
  | nil => exact le_rfl
  | cons hd tl ih =>
    obtain ⟨j, st⟩ := hd
    unfold listConnSum
    by_cases h2 : j ∈ visited
    · rw [if_pos h2, if_pos (List.mem_cons_of_mem _ h2)]
      omega
    · rw [if_neg h2]
      by_cases h1 : j ∈ x :: visited
      · rw [if_pos h1]
        omega
      · rw [if_neg h1]
        omega

theorem listConnSum_visit (w : World) {x : NodeId} {visited : List NodeId}
    (hx : x ∉ visited) :
    listConnSum w (x :: visited) + (conns w x).length ≤ listConnSum w visited := by
  induction w with
  | nil =>
    show listConnSum [] (x :: visited) + (conns [] x).length ≤ listConnSum [] visited
    simp [listConnSum, conns, aget]
  | cons hd tl ih =>
    obtain ⟨j, st⟩ := hd
    by_cases hj : j = x
    · subst hj
      have hc : conns ((j, st) :: tl) j = st.conns := by
        unfold conns aget
        simp
      rw [hc]
      unfold listConnSum
      rw [if_pos (List.mem_cons_self _ _), if_neg hx]
      have := listConnSum_cons_le tl j visited
      omega
    · have hc : conns ((j, st) :: tl) x = conns tl x := by
        have ha : aget ((j, st) :: tl) x = aget tl x := by
          show (if j = x then some st else aget tl x) = aget tl x
          rw [if_neg hj]
        unfold conns
        rw [ha]
      rw [hc]
      unfold listConnSum
      by_cases h2 : j ∈ visited
      · rw [if_pos h2, if_pos (List.mem_cons_of_mem _ h2)]
        omega
      · have h1 : j ∉ x :: visited := by
          intro hc'
          rcases List.mem_cons.mp hc' with rfl | hc''
          · exact hj rfl
          · exact h2 hc''
        rw [if_neg h2, if_neg h1]
        omega

/-- A set containing the source and closed under edges contains everything
reachable. -/
theorem reach_mem_closed {w : World} {s t : NodeId} (h : Reachable w s t)
    {V : List NodeId} (hs : s ∈ V) (hcl : ∀ u ∈ V, ∀ v, edgeRel w u v → v ∈ V) :
    t ∈ V := by
  induction h with
  | refl => exact hs
  | tail _ h2 ih => exact hcl _ ih _ h2

/-- Completeness of the Dijkstra loop: with enough fuel (more than the heap
size plus the connection mass of the unvisited world) and the standard
frontier invariants, the loop cannot return `none` while the target is
reachable. -/
theorem dloop_complete (w : World) (tgt : NodeId) (speed : ℝ) (s : NodeId) :
    ∀ (fuel : ℕ) (visited : List NodeId) (heap : List (ℝ × NodeId))
      (dist : List (NodeId × ℝ)) (prev : List (NodeId × NodeId)),
      heap.length + listConnSum w visited < fuel →
      (∀ i, aget dist i ≠ none → i ∈ visited ∨ ∃ q ∈ heap, (q : ℝ × NodeId).2 = i) →
      (∀ u ∈ visited, ∀ v ∈ conns w u, v ∈ visited ∨ aget dist v ≠ none) →
      aget dist s ≠ none →
      tgt ∉ visited →
      Reachable w s tgt →
      dloop w tgt speed fuel visited heap dist prev ≠ none := by
  intro fuel
  induction fuel with
  | zero =>
    intro visited heap dist prev hfuel
    exact absurd hfuel (Nat.not_lt_zero _)
  | succ fuel ih =>
    intro visited heap dist prev hfuel hK hL hS hT hreach
    unfold dloop
    cases hpop : popMin heap with
    | none =>
      exfalso
      have hnil := popMin_none hpop
      subst hnil
      have hdistvis : ∀ i, aget dist i ≠ none → i ∈ visited := by
        intro i hi
        rcases hK i hi with h | ⟨q, hq, -⟩
        · exact h
        · exact absurd hq (List.not_mem_nil _)
      have hclosed : ∀ u ∈ visited, ∀ v, edgeRel w u v → v ∈ visited := by
        intro u hu v hv
        rcases hL u hu v hv with h | h
        · exact h
        · exact hdistvis v h
      exact hT (reach_mem_closed hreach (hdistvis s hS) hclosed)
    | some pr =>
      obtain ⟨⟨d, cid⟩, rest⟩ := pr
      simp only [hpop]
      have hlen := popMin_length hpop
      by_cases hv : cid ∈ visited
      · rw [if_pos hv]
        refine ih visited rest dist prev (by omega) ?_ hL hS hT hreach
        intro i hi
        rcases hK i hi with h | ⟨q, hq, hqi⟩
        · exact Or.inl h
        · rcases popMin_mem hpop hq with rfl | hq'
          · exact Or.inl (hqi ▸ hv)
          · exact Or.inr ⟨q, hq', hqi⟩
      · rw [if_neg hv]
        by_cases ht : cid = tgt
        · rw [if_pos ht]
          exact fun hc => Option.noConfusion hc
        · rw [if_neg ht]
          obtain ⟨hlenp, -, hmono, hcov, hnew, -⟩ :=
            relaxFold_spec w speed cid d (cid :: visited) (conns w cid) (dist, prev, [])
          rw [← relaxAll_eq] at hlenp hmono hcov hnew
          show dloop w tgt speed fuel (cid :: visited)
            (rest ++ (relaxAll w speed cid d (cid :: visited) dist prev).2.2)
            (relaxAll w speed cid d (cid :: visited) dist prev).1
            (relaxAll w speed cid d (cid :: visited) dist prev).2.1 ≠ none
          refine ih (cid :: visited) _ _ _ ?_ ?_ ?_ ?_ ?_ hreach
          · rw [List.length_append]
            have h2 := listConnSum_visit w hv
            simp only [List.length_nil] at hlenp
            omega
          · intro i hi
            rcases hnew i hi with hold | ⟨q, hq, hqi⟩
            · rcases hK i hold with hvis | ⟨q, hq, hqi⟩
              · exact Or.inl (List.mem_cons_of_mem _ hvis)
              · rcases popMin_mem hpop hq with rfl | hq'
                · exact Or.inl (hqi ▸ List.mem_cons_self _ _)
                · exact Or.inr ⟨q, List.mem_append_left _ hq', hqi⟩
            · exact Or.inr ⟨q, List.mem_append_right _ hq, hqi⟩
          · intro u hu v hvconns
            rcases List.mem_cons.mp hu with rfl | hu'
            · exact hcov v hvconns
            · rcases hL u hu' v hvconns with h | h
              · exact Or.inl (List.mem_cons_of_mem _ h)
              · exact Or.inr (hmono v h)
          · exact hmono s hS
          · intro hmem
            rcases List.mem_cons.mp hmem with rfl | hmem'
            · exact ht rfl
            · exact hT hmem'

/-- `find_path_to` returns a result exactly on the reachable pairs (for any
speed: the loop's termination and visit structure do not depend on the edge
weights). -/
theorem find_path_to_ne_none_iff (w : World) (s t : NodeId) (speed : ℝ) :
    find_path_to w s t speed ≠ none ↔ Reachable w s t := by
  constructor
  · intro h
    unfold find_path_to at h
    by_cases hst : s = t
    · subst hst
      exact Relation.ReflTransGen.refl
    · rw [if_neg hst] at h
      refine dloop_some_reachable w t speed s _ [] [(0, s)] [(s, 0)] [] ?_ h
      intro q hq
      have : q = ((0 : ℝ), s) := by simpa using hq
      rw [this]
      exact Relation.ReflTransGen.refl
  · intro h
    unfold find_path_to
    by_cases hst : s = t
    · rw [if_pos hst]
      exact fun hc => Option.noConfusion hc
    · rw [if_neg hst]
      refine dloop_complete w t speed s _ [] [(0, s)] [(s, 0)] [] ?_ ?_ ?_ ?_ ?_ h
      · rw [listConnSum_nil]
        simp only [List.length_singleton]
        omega
      · intro i hi
        by_cases hsi : s = i
        · exact Or.inr ⟨((0 : ℝ), s), List.mem_singleton_self _, hsi⟩
        · exfalso
          apply hi
          show (if s = i then some (0 : ℝ) else none) = none
          rw [if_neg hsi]
      · intro u hu
        exact absurd hu (List.not_mem_nil _)
      · rw [show aget [(s, (0 : ℝ))] s = if s = s then some 0 else none from rfl, if_pos rfl]
        exact fun hc => Option.noConfusion hc
      · exact List.not_mem_nil _

/-! ### `connect_to` only grows adjacency and never moves nodes -/

theorem conns_connect_back_mono (w1 : World) (a b : NodeId) (bd : Bool) (j x : NodeId)
    (hx : x ∈ conns w1 j) : x ∈ conns (connect_back w1 a b bd) j := by
  unfold connect_back
  cases bd with
  | false => exact hx
  | true =>
    simp only [if_true]
    cases hgb : aget w1 b with
    | none => exact hx
    | some sb =>
      by_cases hmem : a ∈ sb.conns
      · simp only [if_pos hmem]
        exact hx
      · simp only [if_neg hmem]
        by_cases hbj : b = j
        · subst hbj
          rw [conns_aset_self]
          have : conns w1 b = sb.conns := by
            unfold conns
            rw [hgb]
          rw [this] at hx
          exact List.mem_append_left _ hx
        · rw [conns_aset_ne _ _ hbj]
          exact hx

theorem locOf_connect_back (w1 : World) (a b : NodeId) (bd : Bool) (j : NodeId) :
    locOf (connect_back w1 a b bd) j = locOf w1 j := by
  unfold connect_back
  cases bd with
  | false => rfl
  | true =>
    simp only [if_true]
    cases hgb : aget w1 b with
    | none => rfl
    | some sb =>
      by_cases hmem : a ∈ sb.conns
      · simp only [if_pos hmem]
      · simp only [if_neg hmem]
        by_cases hbj : b = j
        · subst hbj
          rw [locOf_aset_self]
          unfold locOf
          rw [hgb]
          rfl
        · rw [locOf_aset_ne _ _ hbj]

theorem conns_connect_mono (w : World) (a b : NodeId) (bd : Bool) (j x : NodeId)
    (hx : x ∈ conns w j) : x ∈ conns ((connect_to w a b bd).1) j := by
  unfold connect_to
  cases hga : aget w a with
  | none => exact hx
  | some sa =>
    by_cases hb : b ∈ sa.conns
    · simp only [if_pos hb]
      exact hx
    · simp only [if_neg hb]
      apply conns_connect_back_mono
      by_cases haj : a = j
      · subst haj
        rw [conns_aset_self]
        have : conns w a = sa.conns := by
          unfold conns
          rw [hga]
        rw [this] at hx
        exact List.mem_append_left _ hx
      · rw [conns_aset_ne _ _ haj]
        exact hx

theorem locOf_connect (w : World) (a b : NodeId) (bd : Bool) (j : NodeId) :
    locOf ((connect_to w a b bd).1) j = locOf w j := by
  unfold connect_to
  cases hga : aget w a with
  | none => rfl
  | some sa =>
    by_cases hb : b ∈ sa.conns
    · simp only [if_pos hb]
    · simp only [if_neg hb]
      rw [locOf_connect_back]
      by_cases haj : a = j
      · subst haj
        rw [locOf_aset_self]
        unfold locOf
        rw [hga]
        rfl
      · rw [locOf_aset_ne _ _ haj]

theorem connect_to_ensures (w : World) (a b : NodeId) (bd : Bool)
    (hga : aget w a ≠ none) : b ∈ conns ((connect_to w a b bd).1) a := by
  unfold connect_to
  cases hga' : aget w a with
  | none => exact absurd hga' hga
  | some sa =>
    by_cases hb : b ∈ sa.conns
    · simp only [if_pos hb]
      unfold conns
      rw [hga']
      exact hb
    · simp only [if_neg hb]
      apply conns_connect_back_mono
      rw [conns_aset_self]
      exact List.mem_append_right _ (List.mem_singleton_self _)

theorem aget_ne_none_of_locOf {w1 w2 : World} (h : ∀ j, locOf w1 j = locOf w2 j)
    {i : NodeId} (hi : aget w2 i ≠ none) : aget w1 i ≠ none := by
  intro hc
  have h1 : locOf w1 i = none := by
    unfold locOf
    rw [hc]
    rfl
  rw [h i] at h1
  unfold locOf at h1
  cases hg : aget w2 i with
  | none => exact hi hg
  | some s =>
    rw [hg] at h1
    exact Option.noConfusion h1

/-! ### The orphan-reconnection inner loop -/

theorem connectAll_loc (nid : NodeId) (maxd : ℝ) :
    ∀ (ms : List NodeId) (wc : World) (j : NodeId),
      locOf (connectAllInRange wc nid ms maxd) j = locOf wc j := by
  intro ms
  induction ms with
  | nil => intro wc j; rfl
  | cons m rest ih =>
    intro wc j
    unfold connectAllInRange
    rw [List.foldl_cons]
    by_cases hcond : get_distance_to wc nid m ≤ maxd * 1.1 ∧ ¬ is_connected_to wc nid m
    · rw [if_pos hcond]
      have := ih (connect_to wc nid m true).1 j
      unfold connectAllInRange at this
      rw [this, locOf_connect]
    · rw [if_neg hcond]
      have := ih wc j
      unfold connectAllInRange at this
      rw [this]

theorem connectAll_mono (nid : NodeId) (maxd : ℝ) :
    ∀ (ms : List NodeId) (wc : World) (j x : NodeId),
      x ∈ conns wc j → x ∈ conns (connectAllInRange wc nid ms maxd) j := by
  intro ms
  induction ms with
  | nil => intro wc j x hx; exact hx
  | cons m rest ih =>
    intro wc j x hx
    unfold connectAllInRange
    rw [List.foldl_cons]
    by_cases hcond : get_distance_to wc nid m ≤ maxd * 1.1 ∧ ¬ is_connected_to wc nid m
    · rw [if_pos hcond]
      have := ih (connect_to wc nid m true).1 j x (conns_connect_mono wc nid m true j x hx)
      unfold connectAllInRange at this
      exact this
    · rw [if_neg hcond]
      have := ih wc j x hx
      unfold connectAllInRange at this
      exact this

/-- After the inner loop of the reconnection phase, the orphan is connected
to every listed node within `1.1 * max_distance` of it. -/
theorem connectAll_ensures (nid : NodeId) (maxd : ℝ) :
    ∀ (ms : List NodeId) (wc : World), aget wc nid ≠ none →
      ∀ m ∈ ms, get_distance_to wc nid m ≤ maxd * 1.1 →
        m ∈ conns (connectAllInRange wc nid ms maxd) nid := by
  intro ms
  induction ms with
  | nil =>
    intro wc _ m hm
    exact absurd hm (List.not_mem_nil _)
  | cons e rest ih =>
    intro wc hwc m hm hgd
    unfold connectAllInRange
    rw [List.foldl_cons]
    rcases List.mem_cons.mp hm with rfl | hm'
    · by_cases hconn : is_connected_to wc nid m
      · -- already connected: membership is preserved through the rest
        by_cases hcond : get_distance_to wc nid m ≤ maxd * 1.1 ∧ ¬ is_connected_to wc nid m
        · exact absurd hcond.2 (not_not.mpr hconn)
        · rw [if_neg hcond]
          have := connectAll_mono nid maxd rest wc nid m hconn
          unfold connectAllInRange at this
          exact this
      · rw [if_pos ⟨hgd, hconn⟩]
        have hens := connect_to_ensures wc nid m true hwc
        have := connectAll_mono nid maxd rest (connect_to wc nid m true).1 nid m hens
        unfold connectAllInRange at this
        exact this
    · by_cases hcond : get_distance_to wc nid e ≤ maxd * 1.1 ∧ ¬ is_connected_to wc nid e
      · rw [if_pos hcond]
        have hloc : ∀ j, locOf (connect_to wc nid e true).1 j = locOf wc j :=
          locOf_connect wc nid e true
        have := ih (connect_to wc nid e true).1
          (aget_ne_none_of_locOf hloc hwc) m hm'
          (by rw [gd_eq_of_locOf hloc]; exact hgd)
        unfold connectAllInRange at this
        exact this
      · rw [if_neg hcond]
        have := ih wc hwc m hm' hgd
        unfold connectAllInRange at this
        exact this

/-! ### The orphan-reconnection outer loop -/

/-- One step of the `reconnect_orphaned_nodes` fold. -/
def reconnectStep (members : List NodeId) (maxd : ℝ) (ref : NodeId)
    (acc : World) (nid : NodeId) : World :=
  if find_path_to acc nid ref 1 = none then connectAllInRange acc nid members maxd
  else acc

theorem reconnect_eq_foldl (w : World) (ref : NodeId) (rest : List NodeId) (maxd : ℝ) :
    reconnect_orphaned_nodes w (ref :: rest) maxd =
      (ref :: rest).foldl (reconnectStep (ref :: rest) maxd ref) w := rfl

theorem reconnectStep_loc (members : List NodeId) (maxd : ℝ) (ref : NodeId)
    (acc : World) (nid j : NodeId) :
    locOf (reconnectStep members maxd ref acc nid) j = locOf acc j := by
  unfold reconnectStep
  by_cases hfp : find_path_to acc nid ref 1 = none
  · rw [if_pos hfp]
    exact connectAll_loc nid maxd members acc j
  · rw [if_neg hfp]

theorem reconnectStep_mono (members : List NodeId) (maxd : ℝ) (ref : NodeId)
    (acc : World) (nid j x : NodeId) (hx : x ∈ conns acc j) :
    x ∈ conns (reconnectStep members maxd ref acc nid) j := by
  unfold reconnectStep
  by_cases hfp : find_path_to acc nid ref 1 = none
  · rw [if_pos hfp]
    exact connectAll_mono nid maxd members acc j x hx
  · rw [if_neg hfp]
    exact hx

theorem reconnectFold_loc (members : List NodeId) (maxd : ℝ) (ref : NodeId) :
    ∀ (ms : List NodeId) (wc : World) (j : NodeId),
      locOf (ms.foldl (reconnectStep members maxd ref) wc) j = locOf wc j := by
  intro ms
  induction ms with
  | nil => intro wc j; rfl
  | cons n rest ih =>
    intro wc j
    rw [List.foldl_cons, ih, reconnectStep_loc]

theorem reconnectFold_mono (members : List NodeId) (maxd : ℝ) (ref : NodeId) :
    ∀ (ms : List NodeId) (wc : World) (j x : NodeId),
      x ∈ conns wc j → x ∈ conns (ms.foldl (reconnectStep members maxd ref) wc) j := by
  intro ms
  induction ms with
  | nil => intro wc j x hx; exact hx
  | cons n rest ih =>
    intro wc j x hx
    rw [List.foldl_cons]
    exact ih _ j x (reconnectStep_mono members maxd ref wc n j x hx)

theorem Reachable_mono {w1 w2 : World} (h : ∀ u v, edgeRel w1 u v → edgeRel w2 u v)
    {s t : NodeId} (hr : Reachable w1 s t) : Reachable w2 s t :=
  Relation.ReflTransGen.mono h hr

/-- Main invariant of the reconnection fold: every processed node either can
reach the reference in the final world, or has been connected to every
member within range of it. -/
theorem reconnectFold_main (members : List NodeId) (maxd : ℝ) (ref : NodeId) :
    ∀ (ms : List NodeId) (wc : World),
      (∀ i ∈ ms, aget wc i ≠ none) →
      ∀ n ∈ ms,
        Reachable (ms.foldl (reconnectStep members maxd ref) wc) n ref ∨
          ∀ m ∈ members, get_distance_to wc n m ≤ maxd * 1.1 →
            m ∈ conns (ms.foldl (reconnectStep members maxd ref) wc) n := by
  intro ms
  induction ms with
  | nil =>
    intro wc _ n hn
    exact absurd hn (List.not_mem_nil _)
  | cons e rest ih =>
    intro wc hmem n hn
    rw [List.foldl_cons]
    have hstep_loc : ∀ j, locOf (reconnectStep members maxd ref wc e) j = locOf wc j :=
      reconnectStep_loc members maxd ref wc e
    rcases List.mem_cons.mp hn with rfl | hn'
    · by_cases hfp : find_path_to wc n ref 1 = none
      · right
        intro m hm hgd
        have hstep : reconnectStep members maxd ref wc n =
            connectAllInRange wc n members maxd := by
          unfold reconnectStep
          rw [if_pos hfp]
        rw [hstep]
        exact reconnectFold_mono members maxd ref rest _ n m
          (connectAll_ensures n maxd members wc (hmem n (List.mem_cons_self _ _)) m hm hgd)
      · left
        have hstep : reconnectStep members maxd ref wc n = wc := by
          unfold reconnectStep
          rw [if_neg hfp]
        rw [hstep]
        have hreach : Reachable wc n ref := (find_path_to_ne_none_iff wc n ref 1).mp hfp
        exact Reachable_mono
          (fun u v hv => reconnectFold_mono members maxd ref rest wc u v hv) hreach
    · have hmem' : ∀ i ∈ rest, aget (reconnectStep members maxd ref wc e) i ≠ none :=
        fun i hi => aget_ne_none_of_locOf hstep_loc (hmem i (List.mem_cons_of_mem _ hi))
      rcases ih (reconnectStep members maxd ref wc e) hmem' n hn' with h | h
      · exact Or.inl h
      · right
        intro m hm hgd
        exact h m hm (by rw [gd_eq_of_locOf hstep_loc]; exact hgd)

/-! ### C3 -/

/-- **C3 (amended).** After the orphan-reconstitution phase, every member
node `n` either has a finite-cost path to the reference node (the first
member), or *no* member within `1.1 * maxDistance` of `n` has such a path —
an orphan with no in-range gateway stays disconnected, so universal
reachability is not achieved in general. -/
theorem C3_reconnect_reachability (w : World) (members : List NodeId) (maxd : ℝ)
    (ref : NodeId) (rest : List NodeId) (hmembers : members = ref :: rest)
    (hmem : ∀ i ∈ members, aget w i ≠ none) :
    ∀ n ∈ members,
      find_path_to (reconnect_orphaned_nodes w members maxd) n ref 1 ≠ none ∨
        ∀ m ∈ members,
          get_distance_to (reconnect_orphaned_nodes w members maxd) n m ≤ maxd * 1.1 →
          find_path_to (reconnect_orphaned_nodes w members maxd) m ref 1 = none := by
  subst hmembers
  intro n hn
  rw [reconnect_eq_foldl]
  set members := ref :: rest with hmembers
  set w' := members.foldl (reconnectStep members maxd ref) w with hw'
  by_cases hfp : find_path_to w' n ref 1 = none
  · right
    intro m hm hgd
    by_contra hmne
    have hreachm : Reachable w' m ref := (find_path_to_ne_none_iff w' m ref 1).mp hmne
    have hloc : ∀ j, locOf w' j = locOf w j := by
      intro j
      rw [hw']
      exact reconnectFold_loc members maxd ref members w j
    rcases reconnectFold_main members maxd ref members w hmem n hn with h | h
    · exact absurd hfp ((find_path_to_ne_none_iff w' n ref 1).mpr h)
    · have hedge : m ∈ conns w' n := h m hm (by rw [← gd_eq_of_locOf hloc]; exact hgd)
      have hreachn : Reachable w' n ref := Relation.ReflTransGen.head hedge hreachm
      exact absurd hfp ((find_path_to_ne_none_iff w' n ref 1).mpr hreachn)
  · exact Or.inl hfp

/-- The phase is the identity on the one-node network (its node reaches the
reference, itself, so it is skipped). -/
theorem single_phase_eval :
    reconnect_orphaned_nodes [(0, ⟨⟨0, 0⟩, []⟩)] [0] 1 = [(0, ⟨⟨0, 0⟩, []⟩)] := by
  rw [show ([0] : List NodeId) = 0 :: [] from rfl, reconnect_eq_foldl, List.foldl_cons]
  have hstep : reconnectStep (0 :: []) 1 0 [(0, ⟨⟨0, 0⟩, []⟩)] 0 = [(0, ⟨⟨0, 0⟩, []⟩)] := by
    unfold reconnectStep
    rw [if_neg (by
      rw [show find_path_to [(0, ⟨⟨0, 0⟩, []⟩)] 0 0 1 = some ([0], 0) from rfl]
      exact fun hc => Option.noConfusion hc)]
  rw [hstep]
  rfl

/-- **C3 (witness).** The amended reachability theorem applied to the
one-node network at its node 0, which reaches the reference (itself). -/
theorem C3_reconnect_reachability_witness :
    find_path_to (reconnect_orphaned_nodes [(0, ⟨⟨0, 0⟩, []⟩)] [0] 1) 0 0 1 ≠ none := by
  have h := C3_reconnect_reachability [(0, ⟨⟨0, 0⟩, []⟩)] [0] 1 0 [] rfl
    (by
      intro i hi
      have : i = 0 := by simpa using hi
      subst this
      show some (⟨⟨0, 0⟩, []⟩ : NodeState) ≠ none
      exact fun hc => Option.noConfusion hc)
    0 (by simp)
  rcases h with h | h
  · exact h
  · rw [single_phase_eval,
      show find_path_to [(0, ⟨⟨0, 0⟩, []⟩)] 0 0 1 = some ([0], 0) from rfl]
    exact fun hc => Option.noConfusion hc

/-- Two isolated nodes on opposite sides of the planet: the network that
defeats orphan reconstitution. -/
def orphanWorld : World := [(0, ⟨⟨0, 0⟩, []⟩), (1, ⟨⟨0, 180⟩, []⟩)]

/-- `orphanWorld` after the phase: the only change is the self-loop the
phase adds to node 1 (node 1 is within range of itself and not connected to
itself, so the reconnection loop connects it to itself). -/
def orphanWorld2 : World := [(0, ⟨⟨0, 0⟩, []⟩), (1, ⟨⟨0, 180⟩, [1]⟩)]

/-- Distance from `(0, 180)` to the origin: 180 degrees. -/
theorem gdp_180_0 :
    GeoLocation.get_distance_to_point ⟨0, 180⟩ ⟨0, 0⟩ = 180 := by
  have hw : wrapLonDiff ((0 : ℝ) - 180) = -180 := by
    unfold wrapLonDiff
    norm_num
  have hrad : radOf (-180) = -Real.pi := by
    unfold radOf
    field_simp
    ring
  have hhav : GeoLocation.hav ⟨0, 180⟩ ⟨0, 0⟩ = 1 := by
    unfold GeoLocation.hav
    show Real.sin ((radOf 0 - radOf 0) / 2) ^ 2 +
      Real.cos (radOf 0) * Real.cos (radOf 0) *
        Real.sin (radOf (wrapLonDiff (0 - 180)) / 2) ^ 2 = 1
    rw [hw, hrad, radOf_zero]
    have : -Real.pi / 2 = -(Real.pi / 2) := by ring
    rw [this]
    simp [Real.sin_neg, Real.sin_pi_div_two]
  unfold GeoLocation.get_distance_to_point
  rw [hhav, Real.sqrt_one, Real.arcsin_one]
  unfold degOf
  field_simp

/-- Distance from `(0, 180)` to itself: 0. -/
theorem gdp_180_self :
    GeoLocation.get_distance_to_point ⟨0, 180⟩ ⟨0, 180⟩ = 0 := by
  have h := gdp_same_lon_eval (p := ⟨0, 180⟩) (q := ⟨0, 180⟩) (x := 0) rfl
    (by left
        show (radOf 0 - radOf 0) / 2 = 0
        norm_num)
    le_rfl (by linarith [Real.pi_pos])
  rw [h]
  simp [degOf]

theorem orphan_find_none : find_path_to orphanWorld 1 0 1 = none := rfl

/-- Evaluation of the reconnection phase on `orphanWorld`: node 0 reaches
the reference (itself) and is skipped; node 1 cannot, its only in-range
"other" node is itself, and it acquires a self-loop. -/
theorem orphan_phase_eval :
    reconnect_orphaned_nodes orphanWorld [0, 1] 10 = orphanWorld2 := by
  rw [show ([0, 1] : List NodeId) = 0 :: [1] from rfl, reconnect_eq_foldl]
  rw [List.foldl_cons]
  have hstep0 : reconnectStep (0 :: [1]) 10 0 orphanWorld 0 = orphanWorld := by
    unfold reconnectStep
    rw [if_neg (by
      rw [show find_path_to orphanWorld 0 0 1 = some ([0], 0) from rfl]
      exact fun hc => Option.noConfusion hc)]
  rw [hstep0, List.foldl_cons]
  have hstep1 : reconnectStep (0 :: [1]) 10 0 orphanWorld 1 =
      connectAllInRange orphanWorld 1 (0 :: [1]) 10 := by
    unfold reconnectStep
    rw [if_pos orphan_find_none]
  rw [hstep1]
  have hca : connectAllInRange orphanWorld 1 (0 :: [1]) 10 = orphanWorld2 := by
    unfold connectAllInRange
    rw [List.foldl_cons]
    rw [if_neg (by
      intro hc
      have h1 : get_distance_to orphanWorld 1 0 ≤ 10 * 1.1 := hc.1
      rw [show get_distance_to orphanWorld 1 0 =
        GeoLocation.get_distance_to_point ⟨0, 180⟩ ⟨0, 0⟩ from rfl, gdp_180_0] at h1
      norm_num at h1)]
    rw [List.foldl_cons]
    rw [if_pos (by
      constructor
      · rw [show get_distance_to orphanWorld 1 1 =
          GeoLocation.get_distance_to_point ⟨0, 180⟩ ⟨0, 180⟩ from rfl, gdp_180_self]
        norm_num
      · show ¬ (1 ∈ conns orphanWorld 1)
        show ¬ (1 ∈ ([] : List NodeId))
        exact List.not_mem_nil _)]
    rfl
  rw [hca]
  rfl

/-- **C3 (counterexample).** On `orphanWorld` — two isolated nodes 180
degrees apart, `maxDistance = 10` — the orphan-reconstitution phase runs to
completion (node 1 merely gains a self-loop, the only node within
`1.1 * maxDistance` of it), yet afterwards node 1, a member of the network,
still has **no** finite-cost path to the reference node 0: `find_path_to`
returns an absent result, refuting "after phase 8 every node has a
finite-cost path to the designated reference node". -/
theorem C3_counterexample :
    reconnect_orphaned_nodes orphanWorld [0, 1] 10 = orphanWorld2 ∧
      (1 : NodeId) ∈ [0, 1] ∧
      find_path_to (reconnect_orphaned_nodes orphanWorld [0, 1] 10) 1 0 1 = none := by
  refine ⟨orphan_phase_eval, by simp, ?_⟩
  rw [orphan_phase_eval]
  rfl

end
